import Mathlib

/-!
Verification of the order-matching engine embedded in the trading agent
(`samples/python/agents/google_adk_trading/agent.py`, class `TradingAgent`).

The Python engine keeps `self.order_book = {"buy": [], "sell": []}` (lists of
order dicts) and `self.trade_history` (list of trade dicts).  `place_order`
validates the side, resolves a missing price through the market-price lookup,
appends the order dict to the book and runs `match_orders`, which re-sorts the
per-symbol book sides and matches them with a two-index `while` loop.

Modelling choices:
* prices (`float` in the source, used only for comparison) are `ℚ`;
* quantities (`int`) are `ℤ`;
* the informational wall-clock `timestamp` fields are not modelled; instead
  each order carries a ghost field `oid : Nat` that models the identity of the
  Python dict object (the engine allocates it from a counter, so within one
  engine run distinct order dicts have distinct `oid`s).  No algorithmic code
  reads `oid`;
* the market-price HTTP lookup is an explicit oracle `String → Option ℚ`.
-/

/-- An order dict as built by `place_order` (minus the informational
`timestamp`, plus the object-identity ghost field `oid`). -/
structure Order where
  order_id : String
  user_id : String
  symbol : String
  side : String
  price : ℚ
  quantity : ℤ
  oid : Nat
deriving DecidableEq

/-- A trade dict as built inside `match_orders` (minus the informational
`timestamp`). -/
structure Trade where
  symbol : String
  price : ℚ
  quantity : ℤ
  buy_user_id : String
  sell_user_id : String
deriving DecidableEq

/-- `self.order_book = {"buy": [...], "sell": [...]}`. -/
structure Book where
  buy : List Order
  sell : List Order
deriving DecidableEq

/-- `self.order_book[side]` (only ever called with a validated side). -/
def Book.side (bk : Book) (s : String) : List Order :=
  if s = "buy" then bk.buy else bk.sell

/-- `self.order_book[side].append(order)`. -/
def Book.push (bk : Book) (s : String) (o : Order) : Book :=
  if s = "buy" then { bk with buy := bk.buy ++ [o] } else { bk with sell := bk.sell ++ [o] }

/-- The mutable state of a `TradingAgent`: the book, the trade history, and the
allocator for the ghost object ids. -/
structure EngineState where
  order_book : Book
  trade_history : List Trade
  next_oid : Nat
deriving DecidableEq

/-- State of a freshly constructed `TradingAgent` (`__init__`). -/
def initState : EngineState :=
  { order_book := { buy := [], sell := [] }, trade_history := [], next_oid := 0 }

/-!  Python's `sorted` is stable.  `sorted(key=lambda x: -x["price"])` and
`sorted(key=lambda x: x["price"])` are modelled by stable insertion sorts:
an element is inserted before the first position whose key does not strictly
precede it, which reproduces the stable order exactly. -/

/-- Stable insertion (descending by price) of an element that occurs earlier
in the original list than everything already inserted. -/
def insertDesc (a : Order) : List Order → List Order
  | [] => [a]
  | b :: l => if b.price ≤ a.price then a :: b :: l else b :: insertDesc a l

/-- `sorted(orders, key=lambda x: -x["price"])` (stable, descending). -/
def sortDesc : List Order → List Order
  | [] => []
  | a :: l => insertDesc a (sortDesc l)

/-- Stable insertion (ascending by price). -/
def insertAsc (a : Order) : List Order → List Order
  | [] => [a]
  | b :: l => if a.price ≤ b.price then a :: b :: l else b :: insertAsc a l

/-- `sorted(orders, key=lambda x: x["price"])` (stable, ascending). -/
def sortAsc : List Order → List Order
  | [] => []
  | a :: l => insertAsc a (sortAsc l)

/-!  The matching loop of `match_orders`:

```
i = 0; j = 0
while i < len(buy_orders) and j < len(sell_orders):
    buy = buy_orders[i]; sell = sell_orders[j]
    if buy["price"] >= sell["price"]:
        trade_qty = min(buy["quantity"], sell["quantity"])
        trade_price = sell["price"]
        trade = {...}; self.trade_history.append(trade)
        buy["quantity"] -= trade_qty
        sell["quantity"] -= trade_qty
        if buy["quantity"] == 0: i += 1
        if sell["quantity"] == 0: j += 1
    else:
        break
```

The loop is embedded in two structurally recursive layers.  `matchOne` runs the
iterations during which `i` stays at one fixed buy order and `j` advances; it
returns control when `i` advances (`consumed = true`), or when the loop would
stop while this buy is current (`break`, or `j = len(sell_orders)`;
`consumed = false`).  `matchLoop` then advances over the buy orders.  Since
`trade_qty` is the `min` of the two quantities, each iteration zeroes at least
one side, so the branch in which neither index advances (which would make the
Python loop repeat with an unchanged state forever) is unreachable; it is
`False.elim` below.  Both layers also return the orders the loop passed over
(Python mutates the dicts in place and keeps them in `buy_orders` /
`sell_orders`), so the final contents of those Python lists are
`passed ++ remaining`. -/

/-- Result of running the loop while one fixed buy order is current. -/
structure StepResult where
  consumed : Bool
  buyOut : Order
  passedSells : List Order
  remSells : List Order
  trades : List Trade
deriving DecidableEq

/-- Result of the whole matching loop.  The final Python `buy_orders` list is
`passedBuys ++ remBuys`, and `buy_orders[i:]` is `remBuys`; similarly for the
sells. -/
structure LoopResult where
  passedBuys : List Order
  remBuys : List Order
  passedSells : List Order
  remSells : List Order
  trades : List Trade
deriving DecidableEq

/-- Iterations of the matching loop while the buy order `b` is current. -/
def matchOne (symbol : String) (b : Order) : List Order → StepResult
  | [] => { consumed := false, buyOut := b, passedSells := [], remSells := [], trades := [] }
  | s :: ss =>
    if s.price ≤ b.price then
      -- trade_qty = min(buy["quantity"], sell["quantity"]); trade_price = sell["price"]
      let t : Trade := { symbol := symbol, price := s.price,
                         quantity := min b.quantity s.quantity,
                         buy_user_id := b.user_id, sell_user_id := s.user_id }
      if _hb : b.quantity - min b.quantity s.quantity = 0 then
        if _hs : s.quantity - min b.quantity s.quantity = 0 then
          { consumed := true,
            buyOut := { b with quantity := b.quantity - min b.quantity s.quantity },
            passedSells := [{ s with quantity := s.quantity - min b.quantity s.quantity }],
            remSells := ss, trades := [t] }
        else
          { consumed := true,
            buyOut := { b with quantity := b.quantity - min b.quantity s.quantity },
            passedSells := [],
            remSells := { s with quantity := s.quantity - min b.quantity s.quantity } :: ss,
            trades := [t] }
      else
        if _hs : s.quantity - min b.quantity s.quantity = 0 then
          let r := matchOne symbol { b with quantity := b.quantity - min b.quantity s.quantity } ss
          { consumed := r.consumed, buyOut := r.buyOut,
            passedSells := { s with quantity := s.quantity - min b.quantity s.quantity } :: r.passedSells,
            remSells := r.remSells, trades := t :: r.trades }
        else
          -- unreachable: min zeroes at least one of the two quantities
          False.elim (by omega)
    else { consumed := false, buyOut := b, passedSells := [], remSells := s :: ss, trades := [] }

/-- The whole `while` loop of `match_orders`. -/
def matchLoop (symbol : String) : List Order → List Order → LoopResult
  | [], sells =>
    { passedBuys := [], remBuys := [], passedSells := [], remSells := sells, trades := [] }
  | b :: bs, sells =>
    let s1 := matchOne symbol b sells
    if s1.consumed then
      let r := matchLoop symbol bs s1.remSells
      { passedBuys := s1.buyOut :: r.passedBuys, remBuys := r.remBuys,
        passedSells := s1.passedSells ++ r.passedSells, remSells := r.remSells,
        trades := s1.trades ++ r.trades }
    else
      { passedBuys := [], remBuys := s1.buyOut :: bs,
        passedSells := s1.passedSells, remSells := s1.remSells, trades := s1.trades }

/-- The sorted per-symbol views built at the top of `match_orders`, fed to the
loop. -/
def match_orders_core (book : Book) (symbol : String) : LoopResult :=
  matchLoop symbol
    (sortDesc (book.buy.filter (fun o => o.symbol == symbol)))
    (sortAsc (book.sell.filter (fun o => o.symbol == symbol)))

/-- `match_orders`: runs the loop and rebuilds the book,
`[o for o in buy_orders[i:] if o["quantity"] > 0] +
 [o for o in self.order_book["buy"] if o["symbol"] != symbol]` (and likewise
for the sells); returns the trades it appended to `self.trade_history`. -/
def match_orders (book : Book) (symbol : String) : Book × List Trade :=
  let r := match_orders_core book symbol
  ({ buy := r.remBuys.filter (fun o => 0 < o.quantity) ++
            book.buy.filter (fun o => o.symbol != symbol),
     sell := r.remSells.filter (fun o => 0 < o.quantity) ++
             book.sell.filter (fun o => o.symbol != symbol) },
   r.trades)

/-- Outcome of `place_order`: `{"status": "success", "order": ...}` or
`{"status": "error", "message": ...}`. -/
inductive PlaceResult where
  | success (order : Order)
  | error (message : String)
deriving DecidableEq

/-- `get_market_price`: the HTTP query to the market agent, abstracted as an
oracle. -/
def get_market_price (oracle : String → Option ℚ) (symbol : String) : Option ℚ :=
  oracle symbol

/-- `'buy' if side == 'sell' else 'sell'` (the opposite book key used in the
order-id computation). -/
def otherSide (side : String) : String :=
  if side = "sell" then "buy" else "sell"

/-- `place_order`.  The returned `order` dict is the same object that
`match_orders` mutates in place, so its final quantity is the post-match one;
this aliasing is modelled by looking the order up (by ghost identity `oid`)
in the loop's final lists `passed ++ remaining`, which hold exactly the final
states of the Python `buy_orders` / `sell_orders` dicts.  The `none` fallback
of that lookup is unreachable: the appended order survives the symbol filter
and the sort, and the loop keeps every order it was given. -/
def place_order (oracle : String → Option ℚ) (st : EngineState)
    (user_id symbol side : String) (quantity : ℤ) (price : Option ℚ) :
    EngineState × PlaceResult :=
  if side ≠ "buy" ∧ side ≠ "sell" then
    (st, PlaceResult.error "Invalid side, must be buy or sell")
  else
    match (match price with
           | some p => some p
           | none => get_market_price oracle symbol) with
    | none => (st, PlaceResult.error "Cannot fetch market price")
    | some p =>
      let order : Order :=
        { order_id := toString ((st.order_book.side side).length +
                                (st.order_book.side (otherSide side)).length + 1),
          user_id := user_id, symbol := symbol, side := side,
          price := p, quantity := quantity, oid := st.next_oid }
      let book1 := st.order_book.push side order
      let r := match_orders_core book1 symbol
      let m := match_orders book1 symbol
      let full := if side = "buy" then r.passedBuys ++ r.remBuys
                  else r.passedSells ++ r.remSells
      let fin := match full.find? (fun o => o.oid == order.oid) with
        | some o => o
        | none => order
      ({ order_book := m.1, trade_history := st.trade_history ++ m.2,
         next_oid := st.next_oid + 1 },
       PlaceResult.success fin)

/-- `get_trade_history`. -/
def get_trade_history (st : EngineState) (user_id : Option String) : List Trade :=
  match user_id with
  | some u => st.trade_history.filter (fun t => t.buy_user_id == u || t.sell_user_id == u)
  | none => st.trade_history

/-- `get_order_book`. -/
def get_order_book (st : EngineState) (symbol : Option String) : Book :=
  match symbol with
  | some s => { buy := st.order_book.buy.filter (fun o => o.symbol == s),
                sell := st.order_book.sell.filter (fun o => o.symbol == s) }
  | none => st.order_book

/-- One call to `place_order`, as an element of a submission script. -/
structure Submission where
  user_id : String
  symbol : String
  side : String
  quantity : ℤ
  price : Option ℚ

/-- Running a script of submissions against a fresh engine: exactly the states
reachable by a sequence of `place_order` calls. -/
def runSubs (oracle : String → Option ℚ) (subs : List Submission) : EngineState :=
  subs.foldl
    (fun st sub => (place_order oracle st sub.user_id sub.symbol sub.side sub.quantity sub.price).1)
    initState

/-- Total quantity of a list of trades. -/
def sumT (ts : List Trade) : ℤ := (ts.map (·.quantity)).sum

/-- Quantity attributed to buy-side participant `u` in a list of trades. -/
def attrB (ts : List Trade) (u : String) : ℤ :=
  sumT (ts.filter (fun t => t.buy_user_id == u))

/-- Quantity attributed to sell-side participant `u` in a list of trades. -/
def attrS (ts : List Trade) (u : String) : ℤ :=
  sumT (ts.filter (fun t => t.sell_user_id == u))

/-- Everything in an order except its (mutable) quantity: the matching loop
only ever rewrites quantities. -/
def Order.core (o : Order) : String × String × String × String × ℚ × Nat :=
  (o.order_id, o.user_id, o.symbol, o.side, o.price, o.oid)

/-- Two orders with different participants (the attribution key carried by a
trade dict). -/
def usersNe (a b : Order) : Prop := a.user_id ≠ b.user_id

instance : DecidableRel usersNe :=
  fun a b => inferInstanceAs (Decidable (a.user_id ≠ b.user_id))

/-- Total quantity of an order list (for conservation statements). -/
def sumQ (l : List Order) : ℤ := (l.map (·.quantity)).sum

/-- The book never holds a crossed pair of orders of one symbol (the §3/§8
invariant, stated for every pair rather than only the best pair: for a sorted
side the best-price order realizes the bound). -/
def Uncrossed (st : EngineState) : Prop :=
  ∀ b ∈ st.order_book.buy, ∀ s ∈ st.order_book.sell,
    b.symbol = s.symbol → b.price < s.price

instance : DecidablePred Uncrossed :=
  fun st => inferInstanceAs (Decidable (∀ b ∈ st.order_book.buy,
    ∀ s ∈ st.order_book.sell, b.symbol = s.symbol → b.price < s.price))

/-- Admission ordering inside one book side: among orders of equal symbol and
price, the earlier-created dict (smaller ghost id) comes first.  Since the
engine only ever appends fresh orders and the sorts are stable, this holds in
every reachable state. -/
def Rord (a b : Order) : Prop := a.symbol = b.symbol → a.price = b.price → a.oid < b.oid

instance : DecidableRel Rord :=
  fun a b => inferInstanceAs (Decidable (_ → _ → _))

/-- Well-formedness of a reachable engine state: both book sides list
same-symbol same-price orders in admission order, and every resting order's
ghost id is below the allocator. -/
def BookWF (st : EngineState) : Prop :=
  st.order_book.buy.Pairwise Rord ∧ st.order_book.sell.Pairwise Rord ∧
  ∀ o ∈ st.order_book.buy ++ st.order_book.sell, o.oid < st.next_oid

/-- Buy-side fixture for the C3 witness. -/
def c3wBuys : List Order :=
  [{ order_id := "1", user_id := "alice", symbol := "ACME", side := "buy",
     price := 100, quantity := 10, oid := 0 }]

/-- Sell-side fixture for the C3 witness. -/
def c3wSells : List Order :=
  [{ order_id := "2", user_id := "bob", symbol := "ACME", side := "sell",
     price := 99, quantity := 6, oid := 1 },
   { order_id := "3", user_id := "carol", symbol := "ACME", side := "sell",
     price := 101, quantity := 7, oid := 2 }]

/-- Submission script for the C5 witness: two same-price buys by distinct
participants. -/
def c5wSubs : List Submission :=
  [{ user_id := "A", symbol := "ACME", side := "buy", quantity := 5, price := some 100 },
   { user_id := "B", symbol := "ACME", side := "buy", quantity := 5, price := some 100 }]

/-- The earlier-admitted resting buy of the C5 witness. -/
def c5wA : Order :=
  { order_id := "1", user_id := "A", symbol := "ACME", side := "buy",
    price := 100, quantity := 5, oid := 0 }

/-- The later-admitted resting buy of the C5 witness. -/
def c5wB : Order :=
  { order_id := "2", user_id := "B", symbol := "ACME", side := "buy",
    price := 100, quantity := 5, oid := 1 }

/-- Submission script for the sell half of the C5 witness: two same-price
sells by distinct participants. -/
def c5sSubs : List Submission :=
  [{ user_id := "A", symbol := "ACME", side := "sell", quantity := 5, price := some 100 },
   { user_id := "B", symbol := "ACME", side := "sell", quantity := 2, price := some 100 }]

/-- The earlier-admitted resting sell of the C5 witness. -/
def c5sA : Order :=
  { order_id := "1", user_id := "A", symbol := "ACME", side := "sell",
    price := 100, quantity := 5, oid := 0 }

/-- The later-admitted resting sell of the C5 witness. -/
def c5sB : Order :=
  { order_id := "2", user_id := "B", symbol := "ACME", side := "sell",
    price := 100, quantity := 2, oid := 1 }

section helperLemmas

theorem core_fields {o o' : Order} (h : o.core = o'.core) :
    o.order_id = o'.order_id ∧ o.user_id = o'.user_id ∧ o.symbol = o'.symbol ∧
    o.side = o'.side ∧ o.price = o'.price ∧ o.oid = o'.oid := by
  simpa [Order.core, Prod.ext_iff] using h

theorem core_quantity {o o' : Order} (hc : o.core = o'.core)
    (hq : o.quantity = o'.quantity) : o = o' := by
  obtain ⟨h1, h2, h3, h4, h5, h6⟩ := core_fields hc
  cases o; cases o'; simp_all

theorem exists_core_of_mem {l l' : List Order}
    (h : l'.map Order.core = l.map Order.core) {o : Order} (ho : o ∈ l') :
    ∃ o₀ ∈ l, o₀.core = o.core := by
  have : o.core ∈ l.map Order.core := h ▸ List.mem_map_of_mem Order.core ho
  obtain ⟨o₀, h1, h2⟩ := List.mem_map.mp this
  exact ⟨o₀, h1, h2⟩

theorem sumT_append (ts1 ts2 : List Trade) : sumT (ts1 ++ ts2) = sumT ts1 + sumT ts2 := by
  simp [sumT]

theorem sumT_cons (t : Trade) (ts : List Trade) : sumT (t :: ts) = t.quantity + sumT ts := by
  simp [sumT]

theorem sumT_all_zero {ts : List Trade} (h : ∀ t ∈ ts, t.quantity = 0) : sumT ts = 0 := by
  induction ts with
  | nil => rfl
  | cons t ts ih =>
    rw [sumT_cons, h t (by simp), ih (fun z hz => h z (by simp [hz]))]
    omega

theorem attrB_append (ts1 ts2 : List Trade) (u : String) :
    attrB (ts1 ++ ts2) u = attrB ts1 u + attrB ts2 u := by
  simp [attrB, sumT_append]

theorem attrS_append (ts1 ts2 : List Trade) (u : String) :
    attrS (ts1 ++ ts2) u = attrS ts1 u + attrS ts2 u := by
  simp [attrS, sumT_append]

theorem attrB_nil (u : String) : attrB [] u = 0 := rfl

theorem attrS_nil (u : String) : attrS [] u = 0 := rfl

theorem attrB_cons (t : Trade) (ts : List Trade) (u : String) :
    attrB (t :: ts) u = (if t.buy_user_id = u then t.quantity else 0) + attrB ts u := by
  by_cases h : t.buy_user_id = u <;> simp [attrB, List.filter_cons, h, sumT_cons]

theorem attrS_cons (t : Trade) (ts : List Trade) (u : String) :
    attrS (t :: ts) u = (if t.sell_user_id = u then t.quantity else 0) + attrS ts u := by
  by_cases h : t.sell_user_id = u <;> simp [attrS, List.filter_cons, h, sumT_cons]

theorem attrB_eq_zero {ts : List Trade} {u : String}
    (h : ∀ t ∈ ts, t.buy_user_id ≠ u) : attrB ts u = 0 := by
  induction ts with
  | nil => rfl
  | cons t ts ih =>
    rw [attrB_cons, if_neg (h t (by simp)), ih (fun t ht => h t (by simp [ht]))]
    ring

theorem attrS_eq_zero {ts : List Trade} {u : String}
    (h : ∀ t ∈ ts, t.sell_user_id ≠ u) : attrS ts u = 0 := by
  induction ts with
  | nil => rfl
  | cons t ts ih =>
    rw [attrS_cons, if_neg (h t (by simp)), ih (fun t ht => h t (by simp [ht]))]
    ring

theorem attrB_all {ts : List Trade} {u : String}
    (h : ∀ t ∈ ts, t.buy_user_id = u) : attrB ts u = sumT ts := by
  induction ts with
  | nil => rfl
  | cons t ts ih =>
    rw [attrB_cons, if_pos (h t (by simp)), ih (fun t ht => h t (by simp [ht])), sumT_cons]

/-- In a list with pairwise-distinct participants, membership plus a shared
participant pins down the order. -/
theorem mem_eq_of_usersNe {l : List Order} (h : l.Pairwise usersNe)
    {a b : Order} (ha : a ∈ l) (hb : b ∈ l) (hu : a.user_id = b.user_id) : a = b := by
  induction l with
  | nil => cases ha
  | cons x xs ih =>
    rcases List.mem_cons.mp ha with rfl | ha' <;> rcases List.mem_cons.mp hb with rfl | hb'
    · rfl
    · exact absurd hu ((List.pairwise_cons.mp h).1 b hb')
    · exact absurd hu.symm ((List.pairwise_cons.mp h).1 a ha')
    · exact ih (List.pairwise_cons.mp h).2 ha' hb'

/-- Two distinct members of a list occur in one relative order or the other. -/
theorem mem_split_pair {l : List Order} {a b : Order}
    (ha : a ∈ l) (hb : b ∈ l) (hne : a ≠ b) :
    (∃ l1 l2 l3, l = l1 ++ a :: l2 ++ b :: l3) ∨
    (∃ l1 l2 l3, l = l1 ++ b :: l2 ++ a :: l3) := by
  induction l with
  | nil => cases ha
  | cons x xs ih =>
    rcases List.mem_cons.mp ha with rfl | ha'
    · have hb' : b ∈ xs := by
        rcases List.mem_cons.mp hb with rfl | hb'
        · exact absurd rfl hne
        · exact hb'
      obtain ⟨l2, l3, rfl⟩ := List.append_of_mem hb'
      exact Or.inl ⟨[], l2, l3, rfl⟩
    · rcases List.mem_cons.mp hb with rfl | hb'
      · obtain ⟨l2, l3, rfl⟩ := List.append_of_mem ha'
        exact Or.inr ⟨[], l2, l3, rfl⟩
      · rcases ih ha' hb' with ⟨l1, l2, l3, rfl⟩ | ⟨l1, l2, l3, rfl⟩
        · exact Or.inl ⟨x :: l1, l2, l3, rfl⟩
        · exact Or.inr ⟨x :: l1, l2, l3, rfl⟩

end helperLemmas

section sortLemmas

theorem insertDesc_perm (a : Order) (l : List Order) : List.Perm (insertDesc a l) (a :: l) := by
  induction l with
  | nil => simp [insertDesc]
  | cons b l ih =>
    simp only [insertDesc]
    by_cases h : b.price ≤ a.price
    · simp [h]
    · simpa [h] using (ih.cons b).trans (List.Perm.swap a b l)

theorem sortDesc_perm (l : List Order) : List.Perm (sortDesc l) l := by
  induction l with
  | nil => rfl
  | cons a l ih => exact (insertDesc_perm a (sortDesc l)).trans (ih.cons a)

theorem sortDesc_mem {l : List Order} {x : Order} : x ∈ sortDesc l ↔ x ∈ l :=
  (sortDesc_perm l).mem_iff

theorem insertAsc_perm (a : Order) (l : List Order) : List.Perm (insertAsc a l) (a :: l) := by
  induction l with
  | nil => simp [insertAsc]
  | cons b l ih =>
    simp only [insertAsc]
    by_cases h : a.price ≤ b.price
    · simp [h]
    · simpa [h] using (ih.cons b).trans (List.Perm.swap a b l)

theorem sortAsc_perm (l : List Order) : List.Perm (sortAsc l) l := by
  induction l with
  | nil => rfl
  | cons a l ih => exact (insertAsc_perm a (sortAsc l)).trans (ih.cons a)

theorem sortAsc_mem {l : List Order} {x : Order} : x ∈ sortAsc l ↔ x ∈ l :=
  (sortAsc_perm l).mem_iff

theorem insertDesc_sorted {a : Order} {l : List Order}
    (h : l.Pairwise (fun x y => y.price ≤ x.price)) :
    (insertDesc a l).Pairwise (fun x y => y.price ≤ x.price) := by
  induction l with
  | nil => simp [insertDesc]
  | cons b l ih =>
    rw [List.pairwise_cons] at h
    simp only [insertDesc]
    by_cases hb : b.price ≤ a.price
    · rw [if_pos hb]
      refine List.pairwise_cons.mpr ⟨?_, List.pairwise_cons.mpr h⟩
      intro x hx
      rcases List.mem_cons.mp hx with rfl | hx'
      · exact hb
      · exact le_trans (h.1 x hx') hb
    · rw [if_neg hb]
      refine List.pairwise_cons.mpr ⟨?_, ih h.2⟩
      intro x hx
      rcases List.mem_cons.mp ((insertDesc_perm a l).mem_iff.mp hx) with rfl | h1
      · exact le_of_lt (lt_of_not_le hb)
      · exact h.1 x h1

theorem sortDesc_sorted (l : List Order) :
    (sortDesc l).Pairwise (fun x y => y.price ≤ x.price) := by
  induction l with
  | nil => simp [sortDesc]
  | cons a l ih => exact insertDesc_sorted ih

theorem insertAsc_sorted {a : Order} {l : List Order}
    (h : l.Pairwise (fun x y => x.price ≤ y.price)) :
    (insertAsc a l).Pairwise (fun x y => x.price ≤ y.price) := by
  induction l with
  | nil => simp [insertAsc]
  | cons b l ih =>
    rw [List.pairwise_cons] at h
    simp only [insertAsc]
    by_cases hb : a.price ≤ b.price
    · rw [if_pos hb]
      refine List.pairwise_cons.mpr ⟨?_, List.pairwise_cons.mpr h⟩
      intro x hx
      rcases List.mem_cons.mp hx with rfl | hx'
      · exact hb
      · exact le_trans hb (h.1 x hx')
    · rw [if_neg hb]
      refine List.pairwise_cons.mpr ⟨?_, ih h.2⟩
      intro x hx
      rcases List.mem_cons.mp ((insertAsc_perm a l).mem_iff.mp hx) with rfl | h1
      · exact le_of_lt (lt_of_not_le hb)
      · exact h.1 x h1

theorem sortAsc_sorted (l : List Order) :
    (sortAsc l).Pairwise (fun x y => x.price ≤ y.price) := by
  induction l with
  | nil => simp [sortAsc]
  | cons a l ih => exact insertAsc_sorted ih

/-- Stability of the descending sort, as preservation of any pairwise relation
that holds automatically between strictly price-ordered pairs (so it only
constrains ties, which the stable sort keeps in list order). -/
theorem insertDesc_pairwise {P : Order → Order → Prop}
    (hP : ∀ x y, x.price < y.price → P y x) {a : Order} {l : List Order}
    (h1 : l.Pairwise P) (h2 : ∀ b ∈ l, P a b) : (insertDesc a l).Pairwise P := by
  induction l with
  | nil => simp [insertDesc]
  | cons b l ih =>
    rw [List.pairwise_cons] at h1
    simp only [insertDesc]
    by_cases hb : b.price ≤ a.price
    · rw [if_pos hb]
      exact List.pairwise_cons.mpr ⟨h2, List.pairwise_cons.mpr h1⟩
    · rw [if_neg hb]
      refine List.pairwise_cons.mpr ⟨?_, ih h1.2 (fun x hx => h2 x (by simp [hx]))⟩
      intro x hx
      rcases List.mem_cons.mp ((insertDesc_perm a l).mem_iff.mp hx) with h3 | h3
      · rw [h3]; exact hP a b (lt_of_not_le hb)
      · exact h1.1 x h3

theorem sortDesc_pairwise {P : Order → Order → Prop}
    (hP : ∀ x y, x.price < y.price → P y x) {l : List Order}
    (h : l.Pairwise P) : (sortDesc l).Pairwise P := by
  induction l with
  | nil => simpa [sortDesc] using h
  | cons a l ih =>
    rw [List.pairwise_cons] at h
    exact insertDesc_pairwise hP (ih h.2)
      (fun b hb => h.1 b (sortDesc_mem.mp hb))

theorem insertAsc_pairwise {P : Order → Order → Prop}
    (hP : ∀ x y, y.price < x.price → P y x) {a : Order} {l : List Order}
    (h1 : l.Pairwise P) (h2 : ∀ b ∈ l, P a b) : (insertAsc a l).Pairwise P := by
  induction l with
  | nil => simp [insertAsc]
  | cons b l ih =>
    rw [List.pairwise_cons] at h1
    simp only [insertAsc]
    by_cases hb : a.price ≤ b.price
    · rw [if_pos hb]
      exact List.pairwise_cons.mpr ⟨h2, List.pairwise_cons.mpr h1⟩
    · rw [if_neg hb]
      refine List.pairwise_cons.mpr ⟨?_, ih h1.2 (fun x hx => h2 x (by simp [hx]))⟩
      intro x hx
      rcases List.mem_cons.mp ((insertAsc_perm a l).mem_iff.mp hx) with h3 | h3
      · rw [h3]; exact hP a b (lt_of_not_le hb)
      · exact h1.1 x h3

theorem sortAsc_pairwise {P : Order → Order → Prop}
    (hP : ∀ x y, y.price < x.price → P y x) {l : List Order}
    (h : l.Pairwise P) : (sortAsc l).Pairwise P := by
  induction l with
  | nil => simpa [sortAsc] using h
  | cons a l ih =>
    rw [List.pairwise_cons] at h
    exact insertAsc_pairwise hP (ih h.2)
      (fun b hb => h.1 b (sortAsc_mem.mp hb))

end sortLemmas

section matchOneLemmas

theorem update_quantity_self (o : Order) : { o with quantity := o.quantity } = o := rfl

theorem matchOne_nil (symbol : String) (b : Order) :
    matchOne symbol b [] =
      { consumed := false, buyOut := b, passedSells := [], remSells := [], trades := [] } := rfl

theorem matchOne_nocross {s b : Order} (h : ¬ s.price ≤ b.price)
    (symbol : String) (ss : List Order) :
    matchOne symbol b (s :: ss) =
      { consumed := false, buyOut := b, passedSells := [], remSells := s :: ss,
        trades := [] } := by
  simp [matchOne, h]

theorem matchOne_both {s b : Order} (h : s.price ≤ b.price)
    (hb : b.quantity - min b.quantity s.quantity = 0)
    (hs : s.quantity - min b.quantity s.quantity = 0)
    (symbol : String) (ss : List Order) :
    matchOne symbol b (s :: ss) =
      { consumed := true,
        buyOut := { b with quantity := b.quantity - min b.quantity s.quantity },
        passedSells := [{ s with quantity := s.quantity - min b.quantity s.quantity }],
        remSells := ss,
        trades := [{ symbol := symbol, price := s.price,
                     quantity := min b.quantity s.quantity,
                     buy_user_id := b.user_id, sell_user_id := s.user_id }] } := by
  simp [matchOne, h, hb, hs]

theorem matchOne_buyonly {s b : Order} (h : s.price ≤ b.price)
    (hb : b.quantity - min b.quantity s.quantity = 0)
    (hs : ¬ s.quantity - min b.quantity s.quantity = 0)
    (symbol : String) (ss : List Order) :
    matchOne symbol b (s :: ss) =
      { consumed := true,
        buyOut := { b with quantity := b.quantity - min b.quantity s.quantity },
        passedSells := [],
        remSells := { s with quantity := s.quantity - min b.quantity s.quantity } :: ss,
        trades := [{ symbol := symbol, price := s.price,
                     quantity := min b.quantity s.quantity,
                     buy_user_id := b.user_id, sell_user_id := s.user_id }] } := by
  simp [matchOne, h, hb, hs]

theorem matchOne_cont {s b : Order} (h : s.price ≤ b.price)
    (hb : ¬ b.quantity - min b.quantity s.quantity = 0)
    (symbol : String) (ss : List Order) :
    matchOne symbol b (s :: ss) =
      { consumed := (matchOne symbol { b with quantity := b.quantity - min b.quantity s.quantity } ss).consumed,
        buyOut := (matchOne symbol { b with quantity := b.quantity - min b.quantity s.quantity } ss).buyOut,
        passedSells := { s with quantity := s.quantity - min b.quantity s.quantity } ::
          (matchOne symbol { b with quantity := b.quantity - min b.quantity s.quantity } ss).passedSells,
        remSells := (matchOne symbol { b with quantity := b.quantity - min b.quantity s.quantity } ss).remSells,
        trades := { symbol := symbol, price := s.price,
                    quantity := min b.quantity s.quantity,
                    buy_user_id := b.user_id, sell_user_id := s.user_id } ::
          (matchOne symbol { b with quantity := b.quantity - min b.quantity s.quantity } ss).trades } := by
  have hs : s.quantity - min b.quantity s.quantity = 0 := by omega
  simp [matchOne, h, hb, hs]

theorem matchOne_buyer (symbol : String) (b : Order) (sells : List Order) :
    ∀ t ∈ (matchOne symbol b sells).trades, t.buy_user_id = b.user_id ∧ t.symbol = symbol := by
  induction sells generalizing b with
  | nil => intro t ht; simp [matchOne_nil] at ht
  | cons s ss ih =>
    intro t ht
    by_cases h : s.price ≤ b.price
    · by_cases hb : b.quantity - min b.quantity s.quantity = 0
      · by_cases hs : s.quantity - min b.quantity s.quantity = 0
        · rw [matchOne_both h hb hs] at ht
          simp at ht; subst ht; exact ⟨rfl, rfl⟩
        · rw [matchOne_buyonly h hb hs] at ht
          simp at ht; subst ht; exact ⟨rfl, rfl⟩
      · rw [matchOne_cont h hb] at ht
        simp only [List.mem_cons] at ht
        rcases ht with rfl | ht'
        · exact ⟨rfl, rfl⟩
        · simpa using ih { b with quantity := b.quantity - min b.quantity s.quantity } t ht'
    · rw [matchOne_nocross h] at ht; simp at ht

theorem matchOne_seller (symbol : String) (b : Order) (sells : List Order) :
    ∀ t ∈ (matchOne symbol b sells).trades,
      ∃ s ∈ sells, t.price = s.price ∧ t.sell_user_id = s.user_id := by
  induction sells generalizing b with
  | nil => intro t ht; simp [matchOne_nil] at ht
  | cons s ss ih =>
    intro t ht
    by_cases h : s.price ≤ b.price
    · by_cases hb : b.quantity - min b.quantity s.quantity = 0
      · by_cases hs : s.quantity - min b.quantity s.quantity = 0
        · rw [matchOne_both h hb hs] at ht
          simp at ht; subst ht; exact ⟨s, by simp⟩
        · rw [matchOne_buyonly h hb hs] at ht
          simp at ht; subst ht; exact ⟨s, by simp⟩
      · rw [matchOne_cont h hb] at ht
        simp only [List.mem_cons] at ht
        rcases ht with rfl | ht'
        · exact ⟨s, by simp⟩
        · obtain ⟨s', hs', h1, h2⟩ := ih { b with quantity := b.quantity - min b.quantity s.quantity } t ht'
          exact ⟨s', by simp [hs'], h1, h2⟩
    · rw [matchOne_nocross h] at ht; simp at ht

theorem matchOne_buyOut_core (symbol : String) (b : Order) (sells : List Order) :
    (matchOne symbol b sells).buyOut.core = b.core := by
  induction sells generalizing b with
  | nil => rfl
  | cons s ss ih =>
    by_cases h : s.price ≤ b.price
    · by_cases hb : b.quantity - min b.quantity s.quantity = 0
      · by_cases hs : s.quantity - min b.quantity s.quantity = 0
        · rw [matchOne_both h hb hs]; rfl
        · rw [matchOne_buyonly h hb hs]; rfl
      · rw [matchOne_cont h hb]
        exact ih { b with quantity := b.quantity - min b.quantity s.quantity }
    · rw [matchOne_nocross h]

theorem matchOne_cores (symbol : String) (b : Order) (sells : List Order) :
    ((matchOne symbol b sells).passedSells ++ (matchOne symbol b sells).remSells).map Order.core =
      sells.map Order.core := by
  induction sells generalizing b with
  | nil => rfl
  | cons s ss ih =>
    by_cases h : s.price ≤ b.price
    · by_cases hb : b.quantity - min b.quantity s.quantity = 0
      · by_cases hs : s.quantity - min b.quantity s.quantity = 0
        · rw [matchOne_both h hb hs]; simp [Order.core]
        · rw [matchOne_buyonly h hb hs]; simp [Order.core]
      · rw [matchOne_cont h hb]
        simpa [Order.core] using ih { b with quantity := b.quantity - min b.quantity s.quantity }
    · rw [matchOne_nocross h]; rfl

theorem matchOne_sum (symbol : String) (b : Order) (sells : List Order) :
    sumT (matchOne symbol b sells).trades = b.quantity - (matchOne symbol b sells).buyOut.quantity := by
  induction sells generalizing b with
  | nil => simp [matchOne_nil, sumT]
  | cons s ss ih =>
    by_cases h : s.price ≤ b.price
    · by_cases hb : b.quantity - min b.quantity s.quantity = 0
      · by_cases hs : s.quantity - min b.quantity s.quantity = 0
        · rw [matchOne_both h hb hs]; simp [sumT]
        · rw [matchOne_buyonly h hb hs]; simp [sumT]
      · rw [matchOne_cont h hb]
        have := ih { b with quantity := b.quantity - min b.quantity s.quantity }
        simp only [sumT_cons]
        simp at this ⊢
        omega
    · rw [matchOne_nocross h]; simp [sumT]

theorem matchOne_sells_sum (symbol : String) (b : Order) (sells : List Order) :
    sumQ ((matchOne symbol b sells).passedSells ++ (matchOne symbol b sells).remSells) =
      sumQ sells - sumT (matchOne symbol b sells).trades := by
  induction sells generalizing b with
  | nil => simp [matchOne_nil, sumQ, sumT]
  | cons s ss ih =>
    by_cases h : s.price ≤ b.price
    · by_cases hb : b.quantity - min b.quantity s.quantity = 0
      · by_cases hs : s.quantity - min b.quantity s.quantity = 0
        · rw [matchOne_both h hb hs]; simp [sumQ, sumT]; omega
        · rw [matchOne_buyonly h hb hs]; simp [sumQ, sumT]; omega
      · rw [matchOne_cont h hb]
        have := ih { b with quantity := b.quantity - min b.quantity s.quantity }
        simp only [sumT_cons]
        simp [sumQ] at this ⊢
        omega
    · rw [matchOne_nocross h]; simp [sumQ, sumT]

theorem matchOne_passed_zero (symbol : String) (b : Order) (sells : List Order) :
    ∀ o ∈ (matchOne symbol b sells).passedSells, o.quantity = 0 := by
  induction sells generalizing b with
  | nil => intro o ho; simp [matchOne_nil] at ho
  | cons s ss ih =>
    intro o ho
    by_cases h : s.price ≤ b.price
    · by_cases hb : b.quantity - min b.quantity s.quantity = 0
      · by_cases hs : s.quantity - min b.quantity s.quantity = 0
        · rw [matchOne_both h hb hs] at ho
          simp at ho; subst ho; exact hs
        · rw [matchOne_buyonly h hb hs] at ho
          simp at ho
      · rw [matchOne_cont h hb] at ho
        have hs : s.quantity - min b.quantity s.quantity = 0 := by omega
        simp only [List.mem_cons] at ho
        rcases ho with rfl | ho'
        · exact hs
        · exact ih { b with quantity := b.quantity - min b.quantity s.quantity } o ho'
    · rw [matchOne_nocross h] at ho; simp at ho

theorem matchOne_consumed_zero (symbol : String) (b : Order) (sells : List Order)
    (h : (matchOne symbol b sells).consumed = true) :
    (matchOne symbol b sells).buyOut.quantity = 0 := by
  induction sells generalizing b with
  | nil => simp [matchOne_nil] at h
  | cons s ss ih =>
    by_cases hc : s.price ≤ b.price
    · by_cases hb : b.quantity - min b.quantity s.quantity = 0
      · by_cases hs : s.quantity - min b.quantity s.quantity = 0
        · rw [matchOne_both hc hb hs]; exact hb
        · rw [matchOne_buyonly hc hb hs]; exact hb
      · rw [matchOne_cont hc hb] at h ⊢
        exact ih { b with quantity := b.quantity - min b.quantity s.quantity } h
    · rw [matchOne_nocross hc] at h; simp at h

theorem matchOne_not_consumed_gt (symbol : String) (b : Order) (sells : List Order)
    (h : (matchOne symbol b sells).consumed = false)
    (hsort : sells.Pairwise (fun x y => x.price ≤ y.price)) :
    ∀ o ∈ (matchOne symbol b sells).remSells, b.price < o.price := by
  induction sells generalizing b with
  | nil => intro o ho; simp [matchOne_nil] at ho
  | cons s ss ih =>
    intro o ho
    rw [List.pairwise_cons] at hsort
    by_cases hc : s.price ≤ b.price
    · by_cases hb : b.quantity - min b.quantity s.quantity = 0
      · by_cases hs : s.quantity - min b.quantity s.quantity = 0
        · rw [matchOne_both hc hb hs] at h; simp at h
        · rw [matchOne_buyonly hc hb hs] at h; simp at h
      · rw [matchOne_cont hc hb] at h ho
        simpa using ih { b with quantity := b.quantity - min b.quantity s.quantity } h hsort.2 o ho
    · rw [matchOne_nocross hc] at ho
      simp only [List.mem_cons] at ho
      rcases ho with rfl | ho'
      · exact lt_of_not_le hc
      · exact lt_of_lt_of_le (lt_of_not_le hc) (hsort.1 o ho')

theorem matchOne_rem_pairwise {P : Order → Order → Prop}
    (hq : ∀ x y q q', P x y → P { x with quantity := q } { y with quantity := q' })
    (symbol : String) (b : Order) {sells : List Order} (h : sells.Pairwise P) :
    (matchOne symbol b sells).remSells.Pairwise P := by
  induction sells generalizing b with
  | nil => simp [matchOne_nil]
  | cons s ss ih =>
    rw [List.pairwise_cons] at h
    by_cases hc : s.price ≤ b.price
    · by_cases hb : b.quantity - min b.quantity s.quantity = 0
      · by_cases hs : s.quantity - min b.quantity s.quantity = 0
        · rw [matchOne_both hc hb hs]; exact h.2
        · rw [matchOne_buyonly hc hb hs]
          refine List.pairwise_cons.mpr ⟨?_, h.2⟩
          intro y hy
          have := hq s y (s.quantity - min b.quantity s.quantity) y.quantity (h.1 y hy)
          simpa [update_quantity_self] using this
      · rw [matchOne_cont hc hb]
        exact ih { b with quantity := b.quantity - min b.quantity s.quantity } h.2
    · rw [matchOne_nocross hc]
      exact List.pairwise_cons.mpr h

theorem matchOne_zero_buy (symbol : String) (b : Order) (sells : List Order)
    (hbq : b.quantity = 0) (hsq : ∀ s ∈ sells, 0 ≤ s.quantity) :
    (matchOne symbol b sells).buyOut.quantity = 0 := by
  cases sells with
  | nil => simpa [matchOne_nil] using hbq
  | cons s ss =>
    by_cases hc : s.price ≤ b.price
    · have hmin : min b.quantity s.quantity = 0 := by
        have := hsq s (by simp)
        omega
      have hb : b.quantity - min b.quantity s.quantity = 0 := by omega
      by_cases hs : s.quantity - min b.quantity s.quantity = 0
      · rw [matchOne_both hc hb hs]; simpa using hb
      · rw [matchOne_buyonly hc hb hs]; simpa using hb
    · rw [matchOne_nocross hc]; exact hbq

theorem matchOne_rem_nonneg (symbol : String) (b : Order) (sells : List Order)
    (hsq : ∀ s ∈ sells, 0 ≤ s.quantity) :
    ∀ o ∈ (matchOne symbol b sells).remSells, 0 ≤ o.quantity := by
  induction sells generalizing b with
  | nil => intro o ho; simp [matchOne_nil] at ho
  | cons s ss ih =>
    intro o ho
    by_cases hc : s.price ≤ b.price
    · by_cases hb : b.quantity - min b.quantity s.quantity = 0
      · by_cases hs : s.quantity - min b.quantity s.quantity = 0
        · rw [matchOne_both hc hb hs] at ho
          exact hsq o (by simp [ho])
        · rw [matchOne_buyonly hc hb hs] at ho
          simp only [List.mem_cons] at ho
          rcases ho with rfl | ho'
          · have h5 := hsq s (by simp)
            show 0 ≤ s.quantity - min b.quantity s.quantity
            omega
          · exact hsq o (by simp [ho'])
      · rw [matchOne_cont hc hb] at ho
        exact ih { b with quantity := b.quantity - min b.quantity s.quantity }
          (fun x hx => hsq x (by simp [hx])) o ho
    · rw [matchOne_nocross hc] at ho
      exact hsq o ho

theorem matchOne_buyOut_nonneg (symbol : String) (b : Order) (sells : List Order)
    (hb0 : 0 ≤ b.quantity) : 0 ≤ (matchOne symbol b sells).buyOut.quantity := by
  induction sells generalizing b with
  | nil => simpa [matchOne_nil] using hb0
  | cons s ss ih =>
    by_cases hc : s.price ≤ b.price
    · by_cases hb : b.quantity - min b.quantity s.quantity = 0
      · by_cases hs : s.quantity - min b.quantity s.quantity = 0
        · rw [matchOne_both hc hb hs]; simp [hb]
        · rw [matchOne_buyonly hc hb hs]; simp [hb]
      · rw [matchOne_cont hc hb]
        refine ih { b with quantity := b.quantity - min b.quantity s.quantity } ?_
        show 0 ≤ b.quantity - min b.quantity s.quantity
        omega
    · rw [matchOne_nocross hc]; exact hb0

/-- Within one `matchOne` run, each sell order's quantity drops by exactly the
trade quantity attributed to its participant (participants pairwise
distinct). -/
theorem matchOne_sell_conserv (symbol : String) (b : Order) (sells : List Order)
    (hu : sells.Pairwise usersNe) :
    ∀ s ∈ sells,
      ∀ o ∈ (matchOne symbol b sells).passedSells ++ (matchOne symbol b sells).remSells,
        o.user_id = s.user_id →
          o.core = s.core ∧
          o.quantity + attrS (matchOne symbol b sells).trades s.user_id = s.quantity := by
  induction sells generalizing b with
  | nil => intro s hs; cases hs
  | cons s0 ss ih =>
    intro s hs o ho huo
    rw [List.pairwise_cons] at hu
    by_cases hc : s0.price ≤ b.price
    · by_cases hb : b.quantity - min b.quantity s0.quantity = 0
      · by_cases hs0 : s0.quantity - min b.quantity s0.quantity = 0
        · rw [matchOne_both hc hb hs0] at ho ⊢
          simp only [List.cons_append, List.nil_append, List.mem_cons] at ho
          rcases List.mem_cons.mp hs with hseq | hs'
          · subst hseq
            rcases ho with rfl | ho'
            · refine ⟨rfl, ?_⟩
              rw [attrS_cons, if_pos rfl, attrS_nil]
              show s.quantity - min b.quantity s.quantity + (min b.quantity s.quantity + 0) = s.quantity
              omega
            · exact absurd huo.symm (hu.1 o ho')
          · rcases ho with rfl | ho'
            · exact absurd huo (hu.1 s hs')
            · have heq : o = s := mem_eq_of_usersNe hu.2 ho' hs' huo
              subst heq
              refine ⟨rfl, ?_⟩
              rw [attrS_cons, if_neg (fun hx => (hu.1 o hs') hx), attrS_nil]
              omega
        · rw [matchOne_buyonly hc hb hs0] at ho ⊢
          simp only [List.nil_append, List.mem_cons] at ho
          rcases List.mem_cons.mp hs with hseq | hs'
          · subst hseq
            rcases ho with rfl | ho'
            · refine ⟨rfl, ?_⟩
              rw [attrS_cons, if_pos rfl, attrS_nil]
              show s.quantity - min b.quantity s.quantity + (min b.quantity s.quantity + 0) = s.quantity
              omega
            · exact absurd huo.symm (hu.1 o ho')
          · rcases ho with rfl | ho'
            · exact absurd huo (hu.1 s hs')
            · have heq : o = s := mem_eq_of_usersNe hu.2 ho' hs' huo
              subst heq
              refine ⟨rfl, ?_⟩
              rw [attrS_cons, if_neg (fun hx => (hu.1 o hs') hx), attrS_nil]
              omega
      · rw [matchOne_cont hc hb] at ho ⊢
        simp only [List.cons_append, List.mem_cons] at ho
        rcases List.mem_cons.mp hs with hseq | hs'
        · subst hseq
          rcases ho with rfl | ho'
          · refine ⟨rfl, ?_⟩
            rw [attrS_cons, if_pos rfl]
            have hz : attrS (matchOne symbol { b with quantity := b.quantity - min b.quantity s.quantity } ss).trades s.user_id = 0 := by
              refine attrS_eq_zero ?_
              intro t ht
              obtain ⟨s2, hs2, _, h2⟩ := matchOne_seller symbol _ ss t ht
              rw [h2]
              exact fun hx => (hu.1 s2 hs2) hx.symm
            rw [hz]
            show s.quantity - min b.quantity s.quantity + (min b.quantity s.quantity + 0) = s.quantity
            omega
          · exfalso
            obtain ⟨s1, hs1, hcore⟩ := exists_core_of_mem (matchOne_cores symbol { b with quantity := b.quantity - min b.quantity s.quantity } ss) ho'
            have huu : s1.user_id = o.user_id := (core_fields hcore).2.1
            exact (hu.1 s1 hs1) (huu.trans huo).symm
        · rcases ho with rfl | ho'
          · exact absurd huo (hu.1 s hs')
          · obtain ⟨hcore, hq⟩ := ih { b with quantity := b.quantity - min b.quantity s0.quantity } hu.2 s hs' o ho' huo
            refine ⟨hcore, ?_⟩
            rw [attrS_cons, if_neg (fun hx => (hu.1 s hs') hx)]
            omega
    · rw [matchOne_nocross hc] at ho ⊢
      simp only [List.nil_append] at ho
      have heq : o = s := mem_eq_of_usersNe (List.pairwise_cons.mpr hu) ho hs huo
      subst heq
      exact ⟨rfl, by rw [attrS_nil]; omega⟩

/-- Within one `matchOne` run, every emitted trade's quantity is the `min` of
the two matched orders' remaining quantities at the moment it is emitted
(remaining = original minus the quantity already traded in this run). -/
theorem matchOne_min (symbol : String) (b : Order) (sells : List Order)
    (hu : sells.Pairwise usersNe) :
    ∀ ts1 t ts2, (matchOne symbol b sells).trades = ts1 ++ t :: ts2 →
      ∀ s ∈ sells, s.user_id = t.sell_user_id →
        t.quantity = min (b.quantity - sumT ts1) (s.quantity - attrS ts1 s.user_id) := by
  induction sells generalizing b with
  | nil =>
    intro ts1 t ts2 hts
    rw [matchOne_nil] at hts
    exact absurd hts.symm (by simp)
  | cons s0 ss ih =>
    intro ts1 t ts2 hts s hs hus
    have hu' := hu
    rw [List.pairwise_cons] at hu
    by_cases hc : s0.price ≤ b.price
    · by_cases hb : b.quantity - min b.quantity s0.quantity = 0
      · by_cases hs0 : s0.quantity - min b.quantity s0.quantity = 0
        · rw [matchOne_both hc hb hs0] at hts
          cases ts1 with
          | cons a l => simp at hts
          | nil =>
            simp only [List.nil_append, List.cons.injEq] at hts
            obtain ⟨heq, -⟩ := hts
            subst heq
            have heq2 : s = s0 :=
              mem_eq_of_usersNe hu' hs (List.mem_cons_self s0 ss) (by simpa using hus)
            subst heq2
            simp [sumT, attrS_nil]
        · rw [matchOne_buyonly hc hb hs0] at hts
          cases ts1 with
          | cons a l => simp at hts
          | nil =>
            simp only [List.nil_append, List.cons.injEq] at hts
            obtain ⟨heq, -⟩ := hts
            subst heq
            have heq2 : s = s0 :=
              mem_eq_of_usersNe hu' hs (List.mem_cons_self s0 ss) (by simpa using hus)
            subst heq2
            simp [sumT, attrS_nil]
      · rw [matchOne_cont hc hb] at hts
        cases ts1 with
        | nil =>
          simp only [List.nil_append, List.cons.injEq] at hts
          obtain ⟨heq, -⟩ := hts
          subst heq
          have heq2 : s = s0 :=
            mem_eq_of_usersNe hu' hs (List.mem_cons_self s0 ss) (by simpa using hus)
          subst heq2
          simp [sumT, attrS_nil]
        | cons a l =>
          simp only [List.cons_append, List.cons.injEq] at hts
          obtain ⟨rfl, hrest⟩ := hts
          have hsmem : s ∈ ss := by
            rcases List.mem_cons.mp hs with hseq | hs'
            · exfalso
              subst hseq
              have ht : t ∈ (matchOne symbol { b with quantity := b.quantity - min b.quantity s.quantity } ss).trades := by
                rw [hrest]; simp
              obtain ⟨s2, hs2, -, h2⟩ := matchOne_seller symbol _ ss t ht
              exact (hu.1 s2 hs2) (hus.trans h2)
            · exact hs'
          have hmin := ih { b with quantity := b.quantity - min b.quantity s0.quantity } hu.2 l t ts2 hrest s hsmem hus
          rw [hmin, sumT_cons, attrS_cons]
          have hne : s0.user_id ≠ s.user_id := hu.1 s hsmem
          rw [if_neg (by simpa using hne)]
          have e1 : ({ b with quantity := b.quantity - min b.quantity s0.quantity } : Order).quantity - sumT l =
              b.quantity - (min b.quantity s0.quantity + sumT l) := by
            show b.quantity - min b.quantity s0.quantity - sumT l =
              b.quantity - (min b.quantity s0.quantity + sumT l)
            ring
          rw [e1]
          have e2 : s.quantity - (0 + attrS l s.user_id) = s.quantity - attrS l s.user_id := by ring
          rw [e2]
    · rw [matchOne_nocross hc] at hts
      exact absurd hts.symm (by simp)

theorem eq_update_of_core_eq {o b : Order} (h : o.core = b.core) :
    o = { b with quantity := o.quantity } :=
  core_quantity (by rw [h]; rfl) rfl

/-- Every sell the inner loop returns (passed or remaining) carries the
participant of some input sell. -/
theorem matchOne_sell_users (symbol : String) (b : Order) (sells : List Order) :
    ∀ o ∈ (matchOne symbol b sells).passedSells ++ (matchOne symbol b sells).remSells,
      ∃ s ∈ sells, o.user_id = s.user_id := by
  intro o ho
  obtain ⟨s, hs, hcore⟩ := exists_core_of_mem (matchOne_cores symbol b sells) ho
  exact ⟨s, hs, ((core_fields hcore).2.1).symm⟩

/-- A sell order dict (identified by `oid`) that entered the inner loop with
quantity zero still has quantity zero afterwards, provided the buy order is
nonnegative. -/
theorem matchOne_zero_sell (symbol : String) (b : Order) (sells : List Order) (x : Nat)
    (hz : ∀ s ∈ sells, s.oid = x → s.quantity = 0) (hb : 0 ≤ b.quantity) :
    ∀ o ∈ (matchOne symbol b sells).passedSells ++ (matchOne symbol b sells).remSells,
      o.oid = x → o.quantity = 0 := by
  induction sells generalizing b with
  | nil => intro o ho; simp [matchOne_nil] at ho
  | cons s ss ih =>
    intro o ho hoid
    by_cases hc : s.price ≤ b.price
    · by_cases hbq : b.quantity - min b.quantity s.quantity = 0
      · by_cases hsq : s.quantity - min b.quantity s.quantity = 0
        · rw [matchOne_both hc hbq hsq] at ho
          simp only [List.cons_append, List.nil_append, List.mem_cons] at ho
          rcases ho with rfl | ho'
          · exact hsq
          · exact hz o (by simp [ho']) hoid
        · rw [matchOne_buyonly hc hbq hsq] at ho
          simp only [List.nil_append, List.mem_cons] at ho
          rcases ho with rfl | ho'
          · exfalso
            have hz0 : s.quantity = 0 := hz s (by simp) (by simpa using hoid)
            omega
          · exact hz o (by simp [ho']) hoid
      · rw [matchOne_cont hc hbq] at ho
        simp only [List.cons_append, List.mem_cons] at ho
        rcases ho with rfl | ho'
        · show s.quantity - min b.quantity s.quantity = 0
          omega
        · exact ih { b with quantity := b.quantity - min b.quantity s.quantity }
            (fun z hzm => hz z (by simp [hzm]))
            (by show (0 : ℤ) ≤ b.quantity - min b.quantity s.quantity; omega) o ho' hoid
    · rw [matchOne_nocross hc] at ho
      simp only [List.nil_append] at ho
      exact hz o ho hoid

/-- When every crossing pair has a zero-quantity member (quantities
nonnegative), the inner loop trades only zero quantities and rewrites no
order: the sells come back exactly as they went in and the buy is
unchanged. -/
theorem matchOne_no_cross (symbol : String) (b : Order) (sells : List Order)
    (hb : 0 ≤ b.quantity) (hs : ∀ s ∈ sells, 0 ≤ s.quantity)
    (hcz : ∀ s ∈ sells, s.price ≤ b.price → b.quantity = 0 ∨ s.quantity = 0) :
    (∀ t ∈ (matchOne symbol b sells).trades, t.quantity = 0) ∧
    (matchOne symbol b sells).passedSells ++ (matchOne symbol b sells).remSells = sells ∧
    (matchOne symbol b sells).buyOut = b := by
  induction sells generalizing b with
  | nil => exact ⟨fun t ht => by simp [matchOne_nil] at ht, rfl, rfl⟩
  | cons s ss ih =>
    by_cases hc : s.price ≤ b.price
    · have hmin : min b.quantity s.quantity = 0 := by
        have h1 := hs s (by simp)
        rcases hcz s (by simp) hc with h2 | h2 <;> omega
      by_cases hbq : b.quantity - min b.quantity s.quantity = 0
      · by_cases hsq : s.quantity - min b.quantity s.quantity = 0
        · rw [matchOne_both hc hbq hsq]
          refine ⟨?_, ?_, ?_⟩
          · intro t ht
            simp only [List.mem_singleton] at ht
            rw [ht]
            exact hmin
          · simp only [List.cons_append, List.nil_append]
            rw [hmin]
            simp
          · rw [hmin]
            simp
        · rw [matchOne_buyonly hc hbq hsq]
          refine ⟨?_, ?_, ?_⟩
          · intro t ht
            simp only [List.mem_singleton] at ht
            rw [ht]
            exact hmin
          · simp only [List.nil_append]
            rw [hmin]
            simp
          · rw [hmin]
            simp
      · rw [matchOne_cont hc hbq]
        have hbeq : ({ b with quantity := b.quantity - min b.quantity s.quantity } : Order) = b := by
          rw [hmin]
          simp
        rw [hbeq]
        obtain ⟨ih1, ih2, ih3⟩ := ih b hb (fun z hz => hs z (by simp [hz]))
          (fun z hz hzc => hcz z (by simp [hz]) hzc)
        refine ⟨?_, ?_, ih3⟩
        · intro t ht
          simp only [List.mem_cons] at ht
          rcases ht with rfl | ht'
          · exact hmin
          · exact ih1 t ht'
        · simp only [List.cons_append]
          rw [hmin]
          simp only [sub_zero]
          rw [ih2]
    · rw [matchOne_nocross hc]
      exact ⟨fun t ht => by simp at ht, rfl, rfl⟩

/-- Sell-side priority inside one inner-loop run: a trade attributed to the
seller `y` forces every sell listed before `y` to have been fully consumed,
so no remaining sell carries the participant of such an earlier sell `x`. -/
theorem matchOne_priority_sell (symbol : String) (x y : Order) (l2 l3 : List Order) :
    ∀ (l1 : List Order) (b : Order),
      (l1 ++ x :: l2 ++ y :: l3).Pairwise usersNe →
      (∃ t ∈ (matchOne symbol b (l1 ++ x :: l2 ++ y :: l3)).trades,
        t.sell_user_id = y.user_id) →
      ∀ o ∈ (matchOne symbol b (l1 ++ x :: l2 ++ y :: l3)).remSells,
        o.user_id ≠ x.user_id := by
  intro l1
  induction l1 with
  | nil =>
    intro b hu htr o ho
    simp only [List.nil_append, List.cons_append] at hu htr ho
    rw [List.pairwise_cons] at hu
    have hxy : usersNe x y := hu.1 y (by simp)
    by_cases hc : x.price ≤ b.price
    · by_cases hbq : b.quantity - min b.quantity x.quantity = 0
      · by_cases hsq : x.quantity - min b.quantity x.quantity = 0
        · rw [matchOne_both hc hbq hsq] at htr
          obtain ⟨t, ht, hty⟩ := htr
          simp only [List.mem_singleton] at ht
          subst ht
          exact absurd (show x.user_id = y.user_id from hty) hxy
        · rw [matchOne_buyonly hc hbq hsq] at htr
          obtain ⟨t, ht, hty⟩ := htr
          simp only [List.mem_singleton] at ht
          subst ht
          exact absurd (show x.user_id = y.user_id from hty) hxy
      · rw [matchOne_cont hc hbq] at ho
        obtain ⟨s, hsmem, hus⟩ := matchOne_sell_users symbol
          { b with quantity := b.quantity - min b.quantity x.quantity } (l2 ++ y :: l3) o
          (List.mem_append_right _ ho)
        rw [hus]
        exact fun hxx => (hu.1 s (by simpa using hsmem)) hxx.symm
    · rw [matchOne_nocross hc] at htr
      obtain ⟨t, ht, -⟩ := htr
      simp at ht
  | cons s0 l1' ih =>
    intro b hu htr o ho
    simp only [List.cons_append] at hu htr ho
    rw [List.pairwise_cons] at hu
    have hs0y : usersNe s0 y := hu.1 y (by simp)
    by_cases hc : s0.price ≤ b.price
    · by_cases hbq : b.quantity - min b.quantity s0.quantity = 0
      · by_cases hsq : s0.quantity - min b.quantity s0.quantity = 0
        · rw [matchOne_both hc hbq hsq] at htr
          obtain ⟨t, ht, hty⟩ := htr
          simp only [List.mem_singleton] at ht
          subst ht
          exact absurd (show s0.user_id = y.user_id from hty) hs0y
        · rw [matchOne_buyonly hc hbq hsq] at htr
          obtain ⟨t, ht, hty⟩ := htr
          simp only [List.mem_singleton] at ht
          subst ht
          exact absurd (show s0.user_id = y.user_id from hty) hs0y
      · rw [matchOne_cont hc hbq] at htr ho
        obtain ⟨t, ht, hty⟩ := htr
        simp only [List.mem_cons] at ht
        rcases ht with rfl | ht'
        · exact absurd (show s0.user_id = y.user_id from hty) hs0y
        · exact ih { b with quantity := b.quantity - min b.quantity s0.quantity }
            hu.2 ⟨t, ht', hty⟩ o ho
    · rw [matchOne_nocross hc] at htr
      obtain ⟨t, ht, -⟩ := htr
      simp at ht

/-- If no trade of an inner-loop run is attributed to the seller `y`, the
remaining sells either still list an order of `x`'s participant before one of
`y`'s, or `x`'s participant has left the sell side entirely. -/
theorem matchOne_keep_sell (symbol : String) (x y : Order) (l2 l3 : List Order) :
    ∀ (l1 : List Order) (b : Order),
      (l1 ++ x :: l2 ++ y :: l3).Pairwise usersNe →
      (∀ t ∈ (matchOne symbol b (l1 ++ x :: l2 ++ y :: l3)).trades,
        t.sell_user_id ≠ y.user_id) →
      (∃ m1 x2 m2 y2 m3,
        (matchOne symbol b (l1 ++ x :: l2 ++ y :: l3)).remSells =
          m1 ++ x2 :: m2 ++ y2 :: m3 ∧
        x2.user_id = x.user_id ∧ y2.user_id = y.user_id) ∨
      (∀ o ∈ (matchOne symbol b (l1 ++ x :: l2 ++ y :: l3)).remSells,
        o.user_id ≠ x.user_id) := by
  intro l1
  induction l1 with
  | nil =>
    intro b hu hnoy
    simp only [List.nil_append, List.cons_append] at hu hnoy ⊢
    rw [List.pairwise_cons] at hu
    by_cases hc : x.price ≤ b.price
    · by_cases hbq : b.quantity - min b.quantity x.quantity = 0
      · by_cases hsq : x.quantity - min b.quantity x.quantity = 0
        · rw [matchOne_both hc hbq hsq]
          refine Or.inr ?_
          intro o ho
          exact fun hxx => (hu.1 o (by simpa using ho)) hxx.symm
        · rw [matchOne_buyonly hc hbq hsq]
          exact Or.inl ⟨[], { x with quantity := x.quantity - min b.quantity x.quantity },
            l2, y, l3, by simp, rfl, rfl⟩
      · rw [matchOne_cont hc hbq]
        refine Or.inr ?_
        intro o ho
        obtain ⟨s, hsmem, hus⟩ := matchOne_sell_users symbol
          { b with quantity := b.quantity - min b.quantity x.quantity } (l2 ++ y :: l3) o
          (List.mem_append_right _ ho)
        rw [hus]
        exact fun hxx => (hu.1 s hsmem) hxx.symm
    · rw [matchOne_nocross hc]
      exact Or.inl ⟨[], x, l2, y, l3, by simp, rfl, rfl⟩
  | cons s0 l1' ih =>
    intro b hu hnoy
    simp only [List.cons_append] at hu hnoy ⊢
    rw [List.pairwise_cons] at hu
    by_cases hc : s0.price ≤ b.price
    · by_cases hbq : b.quantity - min b.quantity s0.quantity = 0
      · by_cases hsq : s0.quantity - min b.quantity s0.quantity = 0
        · rw [matchOne_both hc hbq hsq]
          exact Or.inl ⟨l1', x, l2, y, l3, by simp, rfl, rfl⟩
        · rw [matchOne_buyonly hc hbq hsq]
          exact Or.inl ⟨{ s0 with quantity := s0.quantity - min b.quantity s0.quantity } :: l1',
            x, l2, y, l3, by simp, rfl, rfl⟩
      · rw [matchOne_cont hc hbq] at hnoy ⊢
        refine ih { b with quantity := b.quantity - min b.quantity s0.quantity } hu.2 ?_
        intro t ht
        exact hnoy t (List.mem_cons_of_mem _ ht)
    · rw [matchOne_nocross hc]
      exact Or.inl ⟨s0 :: l1', x, l2, y, l3, by simp, rfl, rfl⟩

end matchOneLemmas

section matchLoopLemmas

theorem matchLoop_nil (symbol : String) (sells : List Order) :
    matchLoop symbol [] sells =
      { passedBuys := [], remBuys := [], passedSells := [], remSells := sells,
        trades := [] } := rfl

theorem matchLoop_cons_consumed {symbol : String} {b : Order} {sells : List Order}
    (h : (matchOne symbol b sells).consumed = true) (bs : List Order) :
    matchLoop symbol (b :: bs) sells =
      { passedBuys := (matchOne symbol b sells).buyOut ::
          (matchLoop symbol bs (matchOne symbol b sells).remSells).passedBuys,
        remBuys := (matchLoop symbol bs (matchOne symbol b sells).remSells).remBuys,
        passedSells := (matchOne symbol b sells).passedSells ++
          (matchLoop symbol bs (matchOne symbol b sells).remSells).passedSells,
        remSells := (matchLoop symbol bs (matchOne symbol b sells).remSells).remSells,
        trades := (matchOne symbol b sells).trades ++
          (matchLoop symbol bs (matchOne symbol b sells).remSells).trades } := by
  simp [matchLoop, h]

theorem matchLoop_cons_stay {symbol : String} {b : Order} {sells : List Order}
    (h : (matchOne symbol b sells).consumed = false) (bs : List Order) :
    matchLoop symbol (b :: bs) sells =
      { passedBuys := [], remBuys := (matchOne symbol b sells).buyOut :: bs,
        passedSells := (matchOne symbol b sells).passedSells,
        remSells := (matchOne symbol b sells).remSells,
        trades := (matchOne symbol b sells).trades } := by
  simp [matchLoop, h]

theorem matchLoop_buyer (symbol : String) (buys sells : List Order) :
    ∀ t ∈ (matchLoop symbol buys sells).trades,
      (∃ b ∈ buys, t.buy_user_id = b.user_id) ∧ t.symbol = symbol := by
  induction buys generalizing sells with
  | nil => intro t ht; simp [matchLoop_nil] at ht
  | cons b bs ih =>
    intro t ht
    by_cases hcon : (matchOne symbol b sells).consumed = true
    · rw [matchLoop_cons_consumed hcon] at ht
      rcases List.mem_append.mp ht with ht1 | ht2
      · obtain ⟨h1, h2⟩ := matchOne_buyer symbol b sells t ht1
        exact ⟨⟨b, by simp, h1⟩, h2⟩
      · obtain ⟨⟨b', hb', h1⟩, h2⟩ := ih (matchOne symbol b sells).remSells t ht2
        exact ⟨⟨b', by simp [hb'], h1⟩, h2⟩
    · rw [matchLoop_cons_stay (Bool.not_eq_true _ ▸ hcon)] at ht
      obtain ⟨h1, h2⟩ := matchOne_buyer symbol b sells t ht
      exact ⟨⟨b, by simp, h1⟩, h2⟩

theorem matchLoop_seller (symbol : String) (buys sells : List Order) :
    ∀ t ∈ (matchLoop symbol buys sells).trades,
      ∃ s ∈ sells, t.price = s.price ∧ t.sell_user_id = s.user_id := by
  induction buys generalizing sells with
  | nil => intro t ht; simp [matchLoop_nil] at ht
  | cons b bs ih =>
    intro t ht
    by_cases hcon : (matchOne symbol b sells).consumed = true
    · rw [matchLoop_cons_consumed hcon] at ht
      rcases List.mem_append.mp ht with ht1 | ht2
      · exact matchOne_seller symbol b sells t ht1
      · obtain ⟨s, hsmem, h1, h2⟩ := ih (matchOne symbol b sells).remSells t ht2
        have hsub : s ∈ (matchOne symbol b sells).passedSells ++ (matchOne symbol b sells).remSells :=
          List.mem_append_right _ hsmem
        obtain ⟨s0, hs0, hcore⟩ := exists_core_of_mem (matchOne_cores symbol b sells) hsub
        obtain ⟨-, hu, -, -, hp, -⟩ := core_fields hcore
        exact ⟨s0, hs0, by rw [h1, hp], by rw [h2, hu]⟩
    · rw [matchLoop_cons_stay (Bool.not_eq_true _ ▸ hcon)] at ht
      exact matchOne_seller symbol b sells t ht

theorem matchLoop_buy_cores (symbol : String) (buys sells : List Order) :
    ((matchLoop symbol buys sells).passedBuys ++ (matchLoop symbol buys sells).remBuys).map Order.core =
      buys.map Order.core := by
  induction buys generalizing sells with
  | nil => rfl
  | cons b bs ih =>
    by_cases hcon : (matchOne symbol b sells).consumed = true
    · rw [matchLoop_cons_consumed hcon]
      simpa [matchOne_buyOut_core] using ih (matchOne symbol b sells).remSells
    · rw [matchLoop_cons_stay (Bool.not_eq_true _ ▸ hcon)]
      simp [matchOne_buyOut_core]

theorem matchLoop_sell_cores (symbol : String) (buys sells : List Order) :
    ((matchLoop symbol buys sells).passedSells ++ (matchLoop symbol buys sells).remSells).map Order.core =
      sells.map Order.core := by
  induction buys generalizing sells with
  | nil => rfl
  | cons b bs ih =>
    by_cases hcon : (matchOne symbol b sells).consumed = true
    · rw [matchLoop_cons_consumed hcon]
      have h1 := ih (matchOne symbol b sells).remSells
      have h2 := matchOne_cores symbol b sells
      simp only [List.map_append] at h1 h2 ⊢
      rw [List.append_assoc, h1]
      exact h2
    · rw [matchLoop_cons_stay (Bool.not_eq_true _ ▸ hcon)]
      exact matchOne_cores symbol b sells

theorem matchLoop_passedBuys_zero (symbol : String) (buys sells : List Order) :
    ∀ o ∈ (matchLoop symbol buys sells).passedBuys, o.quantity = 0 := by
  induction buys generalizing sells with
  | nil => intro o ho; simp [matchLoop_nil] at ho
  | cons b bs ih =>
    intro o ho
    by_cases hcon : (matchOne symbol b sells).consumed = true
    · rw [matchLoop_cons_consumed hcon] at ho
      rcases List.mem_cons.mp ho with rfl | ho'
      · exact matchOne_consumed_zero symbol b sells hcon
      · exact ih (matchOne symbol b sells).remSells o ho'
    · rw [matchLoop_cons_stay (Bool.not_eq_true _ ▸ hcon)] at ho
      simp at ho

theorem matchLoop_passedSells_zero (symbol : String) (buys sells : List Order) :
    ∀ o ∈ (matchLoop symbol buys sells).passedSells, o.quantity = 0 := by
  induction buys generalizing sells with
  | nil => intro o ho; simp [matchLoop_nil] at ho
  | cons b bs ih =>
    intro o ho
    by_cases hcon : (matchOne symbol b sells).consumed = true
    · rw [matchLoop_cons_consumed hcon] at ho
      rcases List.mem_append.mp ho with ho1 | ho2
      · exact matchOne_passed_zero symbol b sells o ho1
      · exact ih (matchOne symbol b sells).remSells o ho2
    · rw [matchLoop_cons_stay (Bool.not_eq_true _ ▸ hcon)] at ho
      exact matchOne_passed_zero symbol b sells o ho

theorem matchLoop_rem_sells_pairwise {P : Order → Order → Prop}
    (hq : ∀ x y q q', P x y → P { x with quantity := q } { y with quantity := q' })
    (symbol : String) (buys : List Order) {sells : List Order} (h : sells.Pairwise P) :
    (matchLoop symbol buys sells).remSells.Pairwise P := by
  induction buys generalizing sells with
  | nil => simpa [matchLoop_nil] using h
  | cons b bs ih =>
    by_cases hcon : (matchOne symbol b sells).consumed = true
    · rw [matchLoop_cons_consumed hcon]
      exact ih (matchOne_rem_pairwise hq symbol b h)
    · rw [matchLoop_cons_stay (Bool.not_eq_true _ ▸ hcon)]
      exact matchOne_rem_pairwise hq symbol b h

theorem matchLoop_rem_buys_pairwise {P : Order → Order → Prop}
    (hq : ∀ x y q q', P x y → P { x with quantity := q } { y with quantity := q' })
    (symbol : String) {buys : List Order} (sells : List Order) (h : buys.Pairwise P) :
    (matchLoop symbol buys sells).remBuys.Pairwise P := by
  induction buys generalizing sells with
  | nil => simp [matchLoop_nil]
  | cons b bs ih =>
    rw [List.pairwise_cons] at h
    by_cases hcon : (matchOne symbol b sells).consumed = true
    · rw [matchLoop_cons_consumed hcon]
      exact ih (matchOne symbol b sells).remSells h.2
    · rw [matchLoop_cons_stay (Bool.not_eq_true _ ▸ hcon)]
      refine List.pairwise_cons.mpr ⟨?_, h.2⟩
      intro x hx
      have hb := eq_update_of_core_eq (matchOne_buyOut_core symbol b sells)
      rw [hb]
      have := hq b x (matchOne symbol b sells).buyOut.quantity x.quantity (h.1 x hx)
      simpa [update_quantity_self] using this

/-- At loop exit the remaining sides cannot cross: every remaining buy price
is strictly below every remaining sell price (for price-sorted inputs). -/
theorem matchLoop_uncrossed (symbol : String) (buys sells : List Order)
    (hbs : buys.Pairwise (fun x y => y.price ≤ x.price))
    (hss : sells.Pairwise (fun x y => x.price ≤ y.price)) :
    ∀ x ∈ (matchLoop symbol buys sells).remBuys,
      ∀ y ∈ (matchLoop symbol buys sells).remSells, x.price < y.price := by
  induction buys generalizing sells with
  | nil => intro x hx; simp [matchLoop_nil] at hx
  | cons b bs ih =>
    intro x hx y hy
    rw [List.pairwise_cons] at hbs
    by_cases hcon : (matchOne symbol b sells).consumed = true
    · rw [matchLoop_cons_consumed hcon] at hx hy
      exact ih (matchOne symbol b sells).remSells hbs.2
        (matchOne_rem_pairwise (fun _ _ _ _ h => h) symbol b hss) x hx y hy
    · rw [matchLoop_cons_stay (Bool.not_eq_true _ ▸ hcon)] at hx hy
      have hgt := matchOne_not_consumed_gt symbol b sells (Bool.not_eq_true _ ▸ hcon) hss y hy
      rcases List.mem_cons.mp hx with hxeq | hx'
      · have hpx : x.price = b.price := by
          rw [hxeq]
          exact (core_fields (matchOne_buyOut_core symbol b sells)).2.2.2.2.1
        rw [hpx]; exact hgt
      · exact lt_of_le_of_lt (hbs.1 x hx') hgt

theorem sumQ_nil : sumQ [] = 0 := rfl

theorem sumQ_cons (o : Order) (l : List Order) : sumQ (o :: l) = o.quantity + sumQ l := by
  simp [sumQ]

theorem sumQ_append (l1 l2 : List Order) : sumQ (l1 ++ l2) = sumQ l1 + sumQ l2 := by
  simp [sumQ]

/-- Transport of participant-distinctness along equal core images. -/
theorem pairwise_usersNe_of_cores {l l' : List Order}
    (hmap : l'.map Order.core = l.map Order.core) (h : l.Pairwise usersNe) :
    l'.Pairwise usersNe := by
  have key : ∀ m : List Order, m.Pairwise usersNe ↔
      (m.map Order.core).Pairwise (fun c d => c.2.1 ≠ d.2.1) := by
    intro m
    rw [List.pairwise_map]
    exact Iff.rfl
  rw [key, hmap, ← key]
  exact h

theorem usersNe_nodup {l : List Order} (h : l.Pairwise usersNe) :
    (l.map (fun o => o.user_id)).Nodup := by
  have hp : (l.map (fun o => o.user_id)).Pairwise (fun a b => a ≠ b) :=
    List.pairwise_map.mpr h
  exact hp

theorem matchLoop_sum_buys (symbol : String) (buys sells : List Order) :
    sumT (matchLoop symbol buys sells).trades =
      sumQ buys - sumQ ((matchLoop symbol buys sells).passedBuys ++ (matchLoop symbol buys sells).remBuys) := by
  induction buys generalizing sells with
  | nil => simp [matchLoop_nil, sumT, sumQ]
  | cons b bs ih =>
    by_cases hcon : (matchOne symbol b sells).consumed = true
    · rw [matchLoop_cons_consumed hcon]
      have h1 := ih (matchOne symbol b sells).remSells
      have h2 := matchOne_sum symbol b sells
      have h3 := matchOne_consumed_zero symbol b sells hcon
      rw [sumQ_append] at h1
      simp only [List.cons_append, sumQ_cons, sumQ_append, sumT_append]
      omega
    · rw [matchLoop_cons_stay (Bool.not_eq_true _ ▸ hcon)]
      have h2 := matchOne_sum symbol b sells
      simp only [List.nil_append, sumQ_cons, sumQ_append]
      omega

theorem matchLoop_sum_sells (symbol : String) (buys sells : List Order) :
    sumT (matchLoop symbol buys sells).trades =
      sumQ sells - sumQ ((matchLoop symbol buys sells).passedSells ++ (matchLoop symbol buys sells).remSells) := by
  induction buys generalizing sells with
  | nil => simp [matchLoop_nil, sumT, sumQ]
  | cons b bs ih =>
    by_cases hcon : (matchOne symbol b sells).consumed = true
    · rw [matchLoop_cons_consumed hcon]
      have h1 := ih (matchOne symbol b sells).remSells
      have h2 := matchOne_sells_sum symbol b sells
      rw [sumQ_append] at h1 h2
      simp only [List.append_assoc, sumT_append, sumQ_append]
      omega
    · rw [matchLoop_cons_stay (Bool.not_eq_true _ ▸ hcon)]
      have h2 := matchOne_sells_sum symbol b sells
      rw [sumQ_append] at h2
      simp only [sumQ_append]
      omega

theorem matchLoop_remBuys_nonneg (symbol : String) (buys sells : List Order)
    (hbq : ∀ b ∈ buys, 0 ≤ b.quantity) :
    ∀ o ∈ (matchLoop symbol buys sells).remBuys, 0 ≤ o.quantity := by
  induction buys generalizing sells with
  | nil => intro o ho; simp [matchLoop_nil] at ho
  | cons b bs ih =>
    intro o ho
    by_cases hcon : (matchOne symbol b sells).consumed = true
    · rw [matchLoop_cons_consumed hcon] at ho
      exact ih (matchOne symbol b sells).remSells (fun z hz => hbq z (by simp [hz])) o ho
    · rw [matchLoop_cons_stay (Bool.not_eq_true _ ▸ hcon)] at ho
      rcases List.mem_cons.mp ho with hoeq | ho'
      · rw [hoeq]
        exact matchOne_buyOut_nonneg symbol b sells (hbq b (by simp))
      · exact hbq o (by simp [ho'])

theorem matchLoop_remSells_nonneg (symbol : String) (buys sells : List Order)
    (hsq : ∀ s ∈ sells, 0 ≤ s.quantity) :
    ∀ o ∈ (matchLoop symbol buys sells).remSells, 0 ≤ o.quantity := by
  induction buys generalizing sells with
  | nil => intro o ho; rw [matchLoop_nil] at ho; exact hsq o ho
  | cons b bs ih =>
    intro o ho
    by_cases hcon : (matchOne symbol b sells).consumed = true
    · rw [matchLoop_cons_consumed hcon] at ho
      exact ih (matchOne symbol b sells).remSells (matchOne_rem_nonneg symbol b sells hsq) o ho
    · rw [matchLoop_cons_stay (Bool.not_eq_true _ ▸ hcon)] at ho
      exact matchOne_rem_nonneg symbol b sells hsq o ho

/-- A buy order whose dict (identified by `oid`) entered the loop with quantity
zero still has quantity zero when the loop finishes, provided the sell side is
nonnegative. -/
theorem matchLoop_zero_qty (symbol : String) (buys sells : List Order) (x : Nat)
    (hz : ∀ b ∈ buys, b.oid = x → b.quantity = 0)
    (hsq : ∀ s ∈ sells, 0 ≤ s.quantity) :
    ∀ o ∈ (matchLoop symbol buys sells).passedBuys ++ (matchLoop symbol buys sells).remBuys,
      o.oid = x → o.quantity = 0 := by
  induction buys generalizing sells with
  | nil => intro o ho; simp [matchLoop_nil] at ho
  | cons b bs ih =>
    intro o ho hoid
    by_cases hcon : (matchOne symbol b sells).consumed = true
    · rw [matchLoop_cons_consumed hcon] at ho
      simp only [List.cons_append, List.mem_cons] at ho
      rcases ho with hoeq | ho'
      · rw [hoeq]
        exact matchOne_consumed_zero symbol b sells hcon
      · exact ih (matchOne symbol b sells).remSells
          (fun z hzmem => hz z (by simp [hzmem]))
          (matchOne_rem_nonneg symbol b sells hsq) o ho' hoid
    · rw [matchLoop_cons_stay (Bool.not_eq_true _ ▸ hcon)] at ho
      simp only [List.nil_append, List.mem_cons] at ho
      rcases ho with hoeq | ho'
      · have hcore := matchOne_buyOut_core symbol b sells
        have hboid : b.oid = x := by
          rw [← (core_fields hcore).2.2.2.2.2, ← hoeq]
          exact hoid
        have hb0 : b.quantity = 0 := hz b (by simp) hboid
        rw [hoeq]
        exact matchOne_zero_buy symbol b sells hb0 hsq
      · exact hz o (by simp [ho']) hoid

/-- Per-buy-order conservation: with pairwise-distinct buy participants, each
buy order's final quantity is its initial quantity minus the total trade
quantity attributed to its participant. -/
theorem matchLoop_attrB (symbol : String) (buys sells : List Order)
    (hu : buys.Pairwise usersNe) :
    ∀ b ∈ buys,
      ∀ o ∈ (matchLoop symbol buys sells).passedBuys ++ (matchLoop symbol buys sells).remBuys,
        o.user_id = b.user_id →
          o.quantity + attrB (matchLoop symbol buys sells).trades b.user_id = b.quantity := by
  induction buys generalizing sells with
  | nil => intro b hb; cases hb
  | cons b0 bs ih =>
    intro b hb o ho huo
    rw [List.pairwise_cons] at hu
    have hbuyA : ∀ t ∈ (matchOne symbol b0 sells).trades, t.buy_user_id = b0.user_id :=
      fun t ht => (matchOne_buyer symbol b0 sells t ht).1
    have hsumA := matchOne_sum symbol b0 sells
    by_cases hcon : (matchOne symbol b0 sells).consumed = true
    · rw [matchLoop_cons_consumed hcon] at ho ⊢
      simp only [List.cons_append, List.mem_cons] at ho
      rw [attrB_append]
      have hzero := matchOne_consumed_zero symbol b0 sells hcon
      rcases List.mem_cons.mp hb with hbeq | hb'
      · rcases ho with hoeq | ho'
        · have h1 : attrB (matchOne symbol b0 sells).trades b.user_id =
              sumT (matchOne symbol b0 sells).trades := by
            refine attrB_all ?_
            intro t ht
            rw [hbuyA t ht, hbeq]
          have h2 : attrB (matchLoop symbol bs (matchOne symbol b0 sells).remSells).trades b.user_id = 0 := by
            refine attrB_eq_zero ?_
            intro t ht
            obtain ⟨⟨b', hb'mem, hbu'⟩, -⟩ :=
              matchLoop_buyer symbol bs (matchOne symbol b0 sells).remSells t ht
            rw [hbu', hbeq]
            exact fun hx => (hu.1 b' hb'mem) hx.symm
          have h3 : o.quantity = 0 := by rw [hoeq]; exact hzero
          have h4 : b.quantity = b0.quantity := by rw [hbeq]
          rw [h1, h2, h3, h4]
          omega
        · exfalso
          obtain ⟨b', hb'mem, hcore⟩ := exists_core_of_mem
            (matchLoop_buy_cores symbol bs (matchOne symbol b0 sells).remSells) ho'
          have : b'.user_id = o.user_id := (core_fields hcore).2.1
          exact (hu.1 b' hb'mem) (by rw [← hbeq, ← huo, this])
      · rcases ho with hoeq | ho'
        · exfalso
          have h5 : o.user_id = b0.user_id := by
            rw [hoeq]
            exact (core_fields (matchOne_buyOut_core symbol b0 sells)).2.1
          exact (hu.1 b hb') (by rw [← huo, h5])
        · have hIH := ih (matchOne symbol b0 sells).remSells hu.2 b hb' o ho' huo
          have h2 : attrB (matchOne symbol b0 sells).trades b.user_id = 0 := by
            refine attrB_eq_zero ?_
            intro t ht
            rw [hbuyA t ht]
            exact fun hx => (hu.1 b hb') hx
          omega
    · rw [matchLoop_cons_stay (Bool.not_eq_true _ ▸ hcon)] at ho ⊢
      simp only [List.nil_append, List.mem_cons] at ho
      rcases List.mem_cons.mp hb with hbeq | hb'
      · rcases ho with hoeq | ho'
        · have h1 : attrB (matchOne symbol b0 sells).trades b.user_id =
              sumT (matchOne symbol b0 sells).trades := by
            refine attrB_all ?_
            intro t ht
            rw [hbuyA t ht, hbeq]
          have h3 : o.quantity = (matchOne symbol b0 sells).buyOut.quantity := by rw [hoeq]
          have h4 : b.quantity = b0.quantity := by rw [hbeq]
          rw [h1, h3, h4]
          omega
        · exfalso
          exact (hu.1 o ho') (by rw [← hbeq, ← huo])
      · rcases ho with hoeq | ho'
        · exfalso
          have h5 : o.user_id = b0.user_id := by
            rw [hoeq]
            exact (core_fields (matchOne_buyOut_core symbol b0 sells)).2.1
          exact (hu.1 b hb') (by rw [← huo, h5])
        · have hob : o = b := mem_eq_of_usersNe hu.2 ho' hb' huo
          have h2 : attrB (matchOne symbol b0 sells).trades b.user_id = 0 := by
            refine attrB_eq_zero ?_
            intro t ht
            rw [hbuyA t ht]
            exact fun hx => (hu.1 b hb') hx
          rw [hob, h2]
          omega

/-- Per-sell-order conservation through the whole loop: with pairwise-distinct
sell participants, each sell order's final quantity is its initial quantity
minus the total trade quantity attributed to its participant. -/
theorem matchLoop_attrS (symbol : String) (buys sells : List Order)
    (hu : sells.Pairwise usersNe) :
    ∀ s ∈ sells,
      ∀ o ∈ (matchLoop symbol buys sells).passedSells ++ (matchLoop symbol buys sells).remSells,
        o.user_id = s.user_id →
          o.core = s.core ∧
          o.quantity + attrS (matchLoop symbol buys sells).trades s.user_id = s.quantity := by
  induction buys generalizing sells with
  | nil =>
    intro s hs o ho huo
    rw [matchLoop_nil] at ho ⊢
    simp only [List.nil_append] at ho
    have : o = s := mem_eq_of_usersNe hu ho hs huo
    subst this
    exact ⟨rfl, by rw [attrS_nil]; omega⟩
  | cons b0 bs ih =>
    intro s hs o ho huo
    have hpair : (matchOne symbol b0 sells).remSells.Pairwise usersNe :=
      matchOne_rem_pairwise (fun _ _ _ _ h => h) symbol b0 hu
    by_cases hcon : (matchOne symbol b0 sells).consumed = true
    · rw [matchLoop_cons_consumed hcon] at ho ⊢
      rw [attrS_append]
      simp only [List.append_assoc, List.mem_append] at ho
      rcases ho with ho1 | ho2
      · obtain ⟨hcore, hsum⟩ :=
          matchOne_sell_conserv symbol b0 sells hu s hs o (List.mem_append_left _ ho1) huo
        have hrest0 : attrS (matchLoop symbol bs (matchOne symbol b0 sells).remSells).trades s.user_id = 0 := by
          refine attrS_eq_zero ?_
          intro t ht hx
          obtain ⟨s', hs'mem, -, hsell⟩ :=
            matchLoop_seller symbol bs (matchOne symbol b0 sells).remSells t ht
          have hnodup : (((matchOne symbol b0 sells).passedSells ++
              (matchOne symbol b0 sells).remSells).map (fun o => o.user_id)).Nodup :=
            usersNe_nodup (pairwise_usersNe_of_cores (matchOne_cores symbol b0 sells) hu)
          rw [List.map_append] at hnodup
          have hdisj := (List.nodup_append.mp hnodup).2.2
          exact hdisj (List.mem_map.mpr ⟨o, ho1, huo⟩)
            (List.mem_map.mpr ⟨s', hs'mem, by rw [← hsell, hx]⟩)
        refine ⟨hcore, ?_⟩
        rw [hrest0]
        omega
      · have hmem2 : o ∈ (matchLoop symbol bs (matchOne symbol b0 sells).remSells).passedSells ++
            (matchLoop symbol bs (matchOne symbol b0 sells).remSells).remSells :=
          List.mem_append.mpr ho2
        obtain ⟨smid, hsmidmem, hcoremid⟩ := exists_core_of_mem
          (matchLoop_sell_cores symbol bs (matchOne symbol b0 sells).remSells) hmem2
        have humid : o.user_id = smid.user_id := ((core_fields hcoremid).2.1).symm
        obtain ⟨hcoreIH, hsumIH⟩ :=
          ih (matchOne symbol b0 sells).remSells hpair smid hsmidmem o hmem2 humid
        have hsmidu : smid.user_id = s.user_id := humid.symm.trans huo
        obtain ⟨hcoreout, hsumout⟩ :=
          matchOne_sell_conserv symbol b0 sells hu s hs smid
            (List.mem_append_right _ hsmidmem) hsmidu
        refine ⟨by rw [hcoreIH, hcoreout], ?_⟩
        have e1 : attrS (matchLoop symbol bs (matchOne symbol b0 sells).remSells).trades s.user_id =
            attrS (matchLoop symbol bs (matchOne symbol b0 sells).remSells).trades smid.user_id := by
          rw [hsmidu]
        rw [e1]
        omega
    · rw [matchLoop_cons_stay (Bool.not_eq_true _ ▸ hcon)] at ho ⊢
      exact matchOne_sell_conserv symbol b0 sells hu s hs o ho huo

/-- The claim-level `min` shape through the whole loop: every trade's quantity
is the `min` of the remaining quantities (original minus already-attributed
fills) of the two matched orders at the moment the trade is emitted. -/
theorem matchLoop_min (symbol : String) (buys sells : List Order)
    (hbu : buys.Pairwise usersNe) (hsu : sells.Pairwise usersNe) :
    ∀ ts1 t ts2, (matchLoop symbol buys sells).trades = ts1 ++ t :: ts2 →
      ∀ b ∈ buys, b.user_id = t.buy_user_id →
        ∀ s ∈ sells, s.user_id = t.sell_user_id →
          t.quantity = min (b.quantity - attrB ts1 b.user_id)
            (s.quantity - attrS ts1 s.user_id) := by
  induction buys generalizing sells with
  | nil =>
    intro ts1 t ts2 hts
    rw [matchLoop_nil] at hts
    exact absurd hts.symm (by simp)
  | cons b0 bs ih =>
    intro ts1 t ts2 hts b hb hub s hs hus
    rw [List.pairwise_cons] at hbu
    have hbuyA : ∀ t' ∈ (matchOne symbol b0 sells).trades, t'.buy_user_id = b0.user_id :=
      fun t' ht' => (matchOne_buyer symbol b0 sells t' ht').1
    by_cases hcon : (matchOne symbol b0 sells).consumed = true
    · rw [matchLoop_cons_consumed hcon] at hts
      simp only at hts
      rcases List.append_eq_append_iff.mp hts with ⟨a', ha1, ha2⟩ | ⟨c', hc1, hc2⟩
      · -- the trade lies in the recursive tail of the loop
        have hbbs : b ∈ bs := by
          rcases List.mem_cons.mp hb with hbeq | hbbs
          · exfalso
            have ht : t ∈ (matchLoop symbol bs (matchOne symbol b0 sells).remSells).trades := by
              rw [ha2]; simp
            obtain ⟨⟨b', hb'mem, hbu'⟩, -⟩ :=
              matchLoop_buyer symbol bs (matchOne symbol b0 sells).remSells t ht
            exact (hbu.1 b' hb'mem) (by rw [← hbeq, hub, hbu'])
          · exact hbbs
        obtain ⟨s', hs'mem, -, hsell⟩ :=
          matchLoop_seller symbol bs (matchOne symbol b0 sells).remSells t (by rw [ha2]; simp)
        have hpair : (matchOne symbol b0 sells).remSells.Pairwise usersNe :=
          matchOne_rem_pairwise (fun _ _ _ _ h => h) symbol b0 hsu
        have hIH := ih (matchOne symbol b0 sells).remSells hbu.2 hpair a' t ts2 ha2
          b hbbs hub s' hs'mem hsell.symm
        have hA0 : attrB (matchOne symbol b0 sells).trades b.user_id = 0 := by
          refine attrB_eq_zero ?_
          intro t' ht'
          rw [hbuyA t' ht']
          exact fun hx => (hbu.1 b hbbs) hx
        have hs'u : s'.user_id = s.user_id := hsell.symm.trans hus.symm
        obtain ⟨-, hsumout⟩ :=
          matchOne_sell_conserv symbol b0 sells hsu s hs s'
            (List.mem_append_right _ hs'mem) hs'u
        have e1 : attrS a' s'.user_id = attrS a' s.user_id := by rw [hs'u]
        rw [hIH, ha1, attrB_append, attrS_append, hA0, e1]
        congr 1
        · omega
        · omega
      · -- the trade lies in this head-buy's run of the inner loop
        cases c' with
        | nil =>
          -- boundary: recursion trades start exactly with the sought trade
          simp only [List.append_nil] at hc1
          have ha2 : (matchLoop symbol bs (matchOne symbol b0 sells).remSells).trades = [] ++ t :: ts2 := by
            simpa using hc2.symm
          have hbbs : b ∈ bs := by
            rcases List.mem_cons.mp hb with hbeq | hbbs
            · exfalso
              have ht : t ∈ (matchLoop symbol bs (matchOne symbol b0 sells).remSells).trades := by
                rw [ha2]; simp
              obtain ⟨⟨b', hb'mem, hbu'⟩, -⟩ :=
                matchLoop_buyer symbol bs (matchOne symbol b0 sells).remSells t ht
              exact (hbu.1 b' hb'mem) (by rw [← hbeq, hub, hbu'])
            · exact hbbs
          obtain ⟨s', hs'mem, -, hsell⟩ :=
            matchLoop_seller symbol bs (matchOne symbol b0 sells).remSells t (by rw [ha2]; simp)
          have hpair : (matchOne symbol b0 sells).remSells.Pairwise usersNe :=
            matchOne_rem_pairwise (fun _ _ _ _ h => h) symbol b0 hsu
          have hIH := ih (matchOne symbol b0 sells).remSells hbu.2 hpair [] t ts2 ha2
            b hbbs hub s' hs'mem hsell.symm
          have hA0 : attrB (matchOne symbol b0 sells).trades b.user_id = 0 := by
            refine attrB_eq_zero ?_
            intro t' ht'
            rw [hbuyA t' ht']
            exact fun hx => (hbu.1 b hbbs) hx
          have hs'u : s'.user_id = s.user_id := hsell.symm.trans hus.symm
          obtain ⟨-, hsumout⟩ :=
            matchOne_sell_conserv symbol b0 sells hsu s hs s'
              (List.mem_append_right _ hs'mem) hs'u
          have hA0' : attrB ts1 b.user_id = 0 := by rw [← hc1]; exact hA0
          have hS' : s'.quantity + attrS ts1 s.user_id = s.quantity := by
            rw [← hc1]; exact hsumout
          rw [hIH]
          simp only [attrB_nil, attrS_nil]
          congr 1
          · omega
          · omega
        | cons tc c'' =>
          simp only [List.cons_append, List.cons.injEq] at hc2
          obtain ⟨rfl, -⟩ := hc2
          -- t occurs inside the head matchOne's trades
          have htA : (matchOne symbol b0 sells).trades = ts1 ++ t :: c'' := hc1
          have htmem : t ∈ (matchOne symbol b0 sells).trades := by rw [htA]; simp
          have hbeq : b = b0 :=
            mem_eq_of_usersNe (List.pairwise_cons.mpr hbu) hb (by simp)
              (by rw [hub, hbuyA t htmem])
          have hmin := matchOne_min symbol b0 sells hsu ts1 t c'' htA s hs hus
          have h1 : attrB ts1 b.user_id = sumT ts1 := by
            refine attrB_all ?_
            intro t' ht'
            have : t' ∈ (matchOne symbol b0 sells).trades := by rw [htA]; simp [ht']
            rw [hbuyA t' this, hbeq]
          rw [hmin, h1, hbeq]
    · rw [matchLoop_cons_stay (Bool.not_eq_true _ ▸ hcon)] at hts
      have htsA : (matchOne symbol b0 sells).trades = ts1 ++ t :: ts2 := hts
      have htmem : t ∈ (matchOne symbol b0 sells).trades := by rw [htsA]; simp
      have hbeq : b = b0 :=
        mem_eq_of_usersNe (List.pairwise_cons.mpr hbu) hb (by simp)
          (by rw [hub, hbuyA t htmem])
      have hmin := matchOne_min symbol b0 sells hsu ts1 t ts2 htsA s hs hus
      have h1 : attrB ts1 b.user_id = sumT ts1 := by
        refine attrB_all ?_
        intro t' ht'
        have : t' ∈ (matchOne symbol b0 sells).trades := by rw [htsA]; simp [ht']
        rw [hbuyA t' this, hbeq]
      rw [hmin, h1, hbeq]

/-- Price-time priority, consumption form: if a trade of this loop run is
attributed to the buy order `y`, every buy order listed before `y` has been
consumed — none of them remains in the book list the loop returns. -/
theorem matchLoop_priority (symbol : String) (x y : Order) (l2 l3 : List Order) :
    ∀ (l1 sells : List Order), (l1 ++ x :: l2 ++ y :: l3).Pairwise usersNe →
      (∃ t ∈ (matchLoop symbol (l1 ++ x :: l2 ++ y :: l3) sells).trades,
        t.buy_user_id = y.user_id) →
      ∀ o ∈ (matchLoop symbol (l1 ++ x :: l2 ++ y :: l3) sells).remBuys,
        o.user_id ≠ x.user_id := by
  intro l1
  induction l1 with
  | nil =>
    intro sells hu htr o ho
    simp only [List.nil_append, List.cons_append] at hu htr ho ⊢
    rw [List.pairwise_cons] at hu
    have hyx : usersNe x y := hu.1 y (by simp)
    by_cases hcon : (matchOne symbol x sells).consumed = true
    · rw [matchLoop_cons_consumed hcon] at ho
      obtain ⟨b', hb'mem, hcore⟩ := exists_core_of_mem
        (matchLoop_buy_cores symbol (l2 ++ y :: l3) (matchOne symbol x sells).remSells)
        (List.mem_append_right _ ho)
      have : b'.user_id = o.user_id := (core_fields hcore).2.1
      intro hx
      exact (hu.1 b' hb'mem) (by rw [this, hx])
    · rw [matchLoop_cons_stay (Bool.not_eq_true _ ▸ hcon)] at htr
      exfalso
      obtain ⟨t, ht, hty⟩ := htr
      have : t.buy_user_id = x.user_id := (matchOne_buyer symbol x sells t ht).1
      exact hyx (by rw [← this, hty])
  | cons b0 l1' ih =>
    intro sells hu htr o ho
    simp only [List.cons_append] at hu htr ho ⊢
    rw [List.pairwise_cons] at hu
    by_cases hcon : (matchOne symbol b0 sells).consumed = true
    · rw [matchLoop_cons_consumed hcon] at htr ho
      obtain ⟨t, ht, hty⟩ := htr
      rcases List.mem_append.mp ht with ht1 | ht2
      · exfalso
        have hb0t : t.buy_user_id = b0.user_id := (matchOne_buyer symbol b0 sells t ht1).1
        have hymem : y ∈ l1' ++ x :: l2 ++ y :: l3 := by simp
        exact (hu.1 y hymem) (by rw [← hb0t, hty])
      · exact ih (matchOne symbol b0 sells).remSells hu.2 ⟨t, ht2, hty⟩ o ho
    · rw [matchLoop_cons_stay (Bool.not_eq_true _ ▸ hcon)] at htr
      exfalso
      obtain ⟨t, ht, hty⟩ := htr
      have hb0t : t.buy_user_id = b0.user_id := (matchOne_buyer symbol b0 sells t ht).1
      have hymem : y ∈ l1' ++ x :: l2 ++ y :: l3 := by simp
      exact (hu.1 y hymem) (by rw [← hb0t, hty])

/-- Every sell the loop returns (passed or remaining) carries the participant
of some input sell. -/
theorem matchLoop_sell_users (symbol : String) (buys sells : List Order) :
    ∀ o ∈ (matchLoop symbol buys sells).passedSells ++ (matchLoop symbol buys sells).remSells,
      ∃ s ∈ sells, o.user_id = s.user_id := by
  intro o ho
  obtain ⟨s, hs, hcore⟩ := exists_core_of_mem (matchLoop_sell_cores symbol buys sells) ho
  exact ⟨s, hs, ((core_fields hcore).2.1).symm⟩

/-- A participant absent from the sell side stays absent through the loop. -/
theorem matchLoop_sell_gone (symbol : String) (buys sells : List Order) (u : String)
    (h : ∀ s ∈ sells, s.user_id ≠ u) :
    ∀ o ∈ (matchLoop symbol buys sells).remSells, o.user_id ≠ u := by
  intro o ho
  obtain ⟨s, hs, hus⟩ := matchLoop_sell_users symbol buys sells o (List.mem_append_right _ ho)
  rw [hus]
  exact h s hs

/-- A sell order dict (identified by `oid`) that entered the loop with
quantity zero still has quantity zero when the loop finishes, provided the
buy side is nonnegative. -/
theorem matchLoop_zero_qty_sell (symbol : String) (buys sells : List Order) (x : Nat)
    (hz : ∀ s ∈ sells, s.oid = x → s.quantity = 0)
    (hbq : ∀ b ∈ buys, 0 ≤ b.quantity) :
    ∀ o ∈ (matchLoop symbol buys sells).passedSells ++ (matchLoop symbol buys sells).remSells,
      o.oid = x → o.quantity = 0 := by
  induction buys generalizing sells with
  | nil =>
    intro o ho hoid
    rw [matchLoop_nil] at ho
    exact hz o (by simpa using ho) hoid
  | cons b0 bs ih =>
    intro o ho hoid
    have hone := matchOne_zero_sell symbol b0 sells x hz (hbq b0 (by simp))
    by_cases hcon : (matchOne symbol b0 sells).consumed = true
    · rw [matchLoop_cons_consumed hcon] at ho
      simp only [List.append_assoc, List.mem_append] at ho
      rcases ho with ho1 | ho2
      · exact hone o (List.mem_append_left _ ho1) hoid
      · exact ih (matchOne symbol b0 sells).remSells
          (fun z hzm hzo => hone z (List.mem_append_right _ hzm) hzo)
          (fun z hzm => hbq z (by simp [hzm])) o (List.mem_append.mpr ho2) hoid
    · rw [matchLoop_cons_stay (Bool.not_eq_true _ ▸ hcon)] at ho
      exact hone o ho hoid

/-- When every crossing pair of the run has a zero-quantity member (quantities
nonnegative), every trade of the run carries quantity zero. -/
theorem matchLoop_no_cross_trades (symbol : String) (buys sells : List Order)
    (hbq : ∀ b ∈ buys, 0 ≤ b.quantity) (hsq : ∀ s ∈ sells, 0 ≤ s.quantity)
    (hcz : ∀ b ∈ buys, ∀ s ∈ sells, s.price ≤ b.price → b.quantity = 0 ∨ s.quantity = 0) :
    ∀ t ∈ (matchLoop symbol buys sells).trades, t.quantity = 0 := by
  induction buys generalizing sells with
  | nil => intro t ht; simp [matchLoop_nil] at ht
  | cons b0 bs ih =>
    intro t ht
    obtain ⟨h1, h2, -⟩ := matchOne_no_cross symbol b0 sells (hbq b0 (by simp)) hsq
      (fun s hs => hcz b0 (by simp) s hs)
    by_cases hcon : (matchOne symbol b0 sells).consumed = true
    · rw [matchLoop_cons_consumed hcon] at ht
      rcases List.mem_append.mp ht with ht1 | ht2
      · exact h1 t ht1
      · exact ih (matchOne symbol b0 sells).remSells
          (fun z hz => hbq z (by simp [hz]))
          (fun z hz => hsq z (h2 ▸ List.mem_append_right _ hz))
          (fun zb hzb zs hzs hzc =>
            hcz zb (by simp [hzb]) zs (h2 ▸ List.mem_append_right _ hzs) hzc)
          t ht2
    · rw [matchLoop_cons_stay (Bool.not_eq_true _ ▸ hcon)] at ht
      exact h1 t ht

/-- Sell-side priority through the whole loop: if the sell list still lists an
order of participant `xu` before one of participant `yu` (or `xu` is already
gone), a trade attributed to the seller `yu` forces `xu` off the remaining
sell side. -/
theorem matchLoop_priority_sell (symbol : String) (xu yu : String) :
    ∀ (buys sells : List Order),
      sells.Pairwise usersNe →
      ((∃ l1 x l2 y l3, sells = l1 ++ x :: l2 ++ y :: l3 ∧
          x.user_id = xu ∧ y.user_id = yu) ∨
        (∀ s ∈ sells, s.user_id ≠ xu)) →
      (∃ t ∈ (matchLoop symbol buys sells).trades, t.sell_user_id = yu) →
      ∀ o ∈ (matchLoop symbol buys sells).remSells, o.user_id ≠ xu := by
  intro buys
  induction buys with
  | nil =>
    intro sells hu hB htr
    rw [matchLoop_nil] at htr
    obtain ⟨t, ht, -⟩ := htr
    simp at ht
  | cons b0 bs ih =>
    intro sells hu hB htr o ho
    rcases hB with ⟨l1, x, l2, y, l3, rfl, hx, hy⟩ | hgone
    · by_cases hcon : (matchOne symbol b0 (l1 ++ x :: l2 ++ y :: l3)).consumed = true
      · rw [matchLoop_cons_consumed hcon] at htr ho
        by_cases hy1 : ∃ t ∈ (matchOne symbol b0 (l1 ++ x :: l2 ++ y :: l3)).trades,
            t.sell_user_id = yu
        · obtain ⟨t1, ht1, hty1⟩ := hy1
          have hgone1 : ∀ o2 ∈ (matchOne symbol b0 (l1 ++ x :: l2 ++ y :: l3)).remSells,
              o2.user_id ≠ x.user_id :=
            matchOne_priority_sell symbol x y l2 l3 l1 b0 hu
              ⟨t1, ht1, by rw [hty1]; exact hy.symm⟩
          obtain ⟨s, hs, hus⟩ := matchLoop_sell_users symbol bs
            (matchOne symbol b0 (l1 ++ x :: l2 ++ y :: l3)).remSells o
            (List.mem_append_right _ ho)
          rw [hus, ← hx]
          exact hgone1 s hs
        · have hnoy : ∀ t ∈ (matchOne symbol b0 (l1 ++ x :: l2 ++ y :: l3)).trades,
              t.sell_user_id ≠ yu := by
            intro t ht hcontra
            exact hy1 ⟨t, ht, hcontra⟩
          have hpair : (matchOne symbol b0 (l1 ++ x :: l2 ++ y :: l3)).remSells.Pairwise usersNe :=
            matchOne_rem_pairwise (fun _ _ _ _ h => h) symbol b0 hu
          obtain ⟨t, ht, hty⟩ := htr
          rcases List.mem_append.mp ht with ht1 | ht2
          · exact absurd hty (hnoy t ht1)
          · rcases matchOne_keep_sell symbol x y l2 l3 l1 b0 hu
              (fun t2 ht2x => by rw [hy]; exact hnoy t2 ht2x) with
              ⟨m1, x2, m2, y2, m3, hdec, hx2, hy2⟩ | hgone2
            · exact ih (matchOne symbol b0 (l1 ++ x :: l2 ++ y :: l3)).remSells hpair
                (Or.inl ⟨m1, x2, m2, y2, m3, hdec, by rw [hx2, hx], by rw [hy2, hy]⟩)
                ⟨t, ht2, hty⟩ o ho
            · exact ih (matchOne symbol b0 (l1 ++ x :: l2 ++ y :: l3)).remSells hpair
                (Or.inr (fun s hs => hx ▸ hgone2 s hs))
                ⟨t, ht2, hty⟩ o ho
      · rw [matchLoop_cons_stay (Bool.not_eq_true _ ▸ hcon)] at htr ho
        obtain ⟨t, ht, hty⟩ := htr
        have hdone := matchOne_priority_sell symbol x y l2 l3 l1 b0 hu
          ⟨t, ht, by rw [hty]; exact hy.symm⟩ o ho
        exact hx ▸ hdone
    · exact matchLoop_sell_gone symbol (b0 :: bs) sells xu hgone o ho

end matchLoopLemmas

section placeOrderLemmas

theorem Book.push_buy_buy (bk : Book) (o : Order) : (bk.push "buy" o).buy = bk.buy ++ [o] := by
  simp [Book.push]

theorem Book.push_buy_sell (bk : Book) (o : Order) : (bk.push "buy" o).sell = bk.sell := by
  simp [Book.push]

theorem Book.push_sell_buy (bk : Book) (o : Order) : (bk.push "sell" o).buy = bk.buy := by
  simp [Book.push]

theorem Book.push_sell_sell (bk : Book) (o : Order) : (bk.push "sell" o).sell = bk.sell ++ [o] := by
  simp [Book.push]

theorem place_order_invalid (oracle : String → Option ℚ) (st : EngineState)
    (user_id symbol side : String) (quantity : ℤ) (price : Option ℚ)
    (h : side ≠ "buy" ∧ side ≠ "sell") :
    place_order oracle st user_id symbol side quantity price =
      (st, PlaceResult.error "Invalid side, must be buy or sell") := by
  rw [place_order.eq_def, if_pos h]

theorem place_order_noprice (oracle : String → Option ℚ) (st : EngineState)
    (user_id symbol side : String) (quantity : ℤ)
    (hside : ¬ (side ≠ "buy" ∧ side ≠ "sell")) (hp : oracle symbol = none) :
    place_order oracle st user_id symbol side quantity none =
      (st, PlaceResult.error "Cannot fetch market price") := by
  rw [place_order.eq_def, if_neg hside]
  simp [get_market_price, hp]

/-- The successful path of `place_order`, written out: the new state and the
returned (aliased) order dict, given the resolved price `p`. -/
theorem place_order_success (oracle : String → Option ℚ) (st : EngineState)
    (user_id symbol side : String) (quantity : ℤ) (price : Option ℚ) (p : ℚ)
    (hside : ¬ (side ≠ "buy" ∧ side ≠ "sell"))
    (hp : (match price with
           | some q => some q
           | none => get_market_price oracle symbol) = some p) :
    place_order oracle st user_id symbol side quantity price =
      ({ order_book := (match_orders (st.order_book.push side
            { order_id := toString ((st.order_book.side side).length +
                                    (st.order_book.side (otherSide side)).length + 1),
              user_id := user_id, symbol := symbol, side := side,
              price := p, quantity := quantity, oid := st.next_oid }) symbol).1,
         trade_history := st.trade_history ++
           (match_orders (st.order_book.push side
            { order_id := toString ((st.order_book.side side).length +
                                    (st.order_book.side (otherSide side)).length + 1),
              user_id := user_id, symbol := symbol, side := side,
              price := p, quantity := quantity, oid := st.next_oid }) symbol).2,
         next_oid := st.next_oid + 1 },
       PlaceResult.success
         (match (if side = "buy"
                 then (match_orders_core (st.order_book.push side
                        { order_id := toString ((st.order_book.side side).length +
                                                (st.order_book.side (otherSide side)).length + 1),
                          user_id := user_id, symbol := symbol, side := side,
                          price := p, quantity := quantity, oid := st.next_oid }) symbol).passedBuys ++
                      (match_orders_core (st.order_book.push side
                        { order_id := toString ((st.order_book.side side).length +
                                                (st.order_book.side (otherSide side)).length + 1),
                          user_id := user_id, symbol := symbol, side := side,
                          price := p, quantity := quantity, oid := st.next_oid }) symbol).remBuys
                 else (match_orders_core (st.order_book.push side
                        { order_id := toString ((st.order_book.side side).length +
                                                (st.order_book.side (otherSide side)).length + 1),
                          user_id := user_id, symbol := symbol, side := side,
                          price := p, quantity := quantity, oid := st.next_oid }) symbol).passedSells ++
                      (match_orders_core (st.order_book.push side
                        { order_id := toString ((st.order_book.side side).length +
                                                (st.order_book.side (otherSide side)).length + 1),
                          user_id := user_id, symbol := symbol, side := side,
                          price := p, quantity := quantity, oid := st.next_oid }) symbol).remSells).find?
            (fun o => o.oid == st.next_oid) with
          | some o => o
          | none =>
              { order_id := toString ((st.order_book.side side).length +
                                      (st.order_book.side (otherSide side)).length + 1),
                user_id := user_id, symbol := symbol, side := side,
                price := p, quantity := quantity, oid := st.next_oid })) := by
  rw [place_order.eq_def, if_neg hside, hp]

theorem match_orders_core_remBuys_symbol (book : Book) (sym : String) :
    ∀ o ∈ (match_orders_core book sym).remBuys, o.symbol = sym := by
  intro o ho
  obtain ⟨i, hi, hcore⟩ := exists_core_of_mem
    (matchLoop_buy_cores sym (sortDesc (book.buy.filter (fun o => o.symbol == sym)))
      (sortAsc (book.sell.filter (fun o => o.symbol == sym))))
    (List.mem_append_right _ ho)
  have hmem : i ∈ book.buy.filter (fun o => o.symbol == sym) := sortDesc_mem.mp hi
  have hsym : i.symbol = sym := by simpa using (List.mem_filter.mp hmem).2
  rw [← (core_fields hcore).2.2.1]
  exact hsym

theorem match_orders_core_remSells_symbol (book : Book) (sym : String) :
    ∀ o ∈ (match_orders_core book sym).remSells, o.symbol = sym := by
  intro o ho
  obtain ⟨i, hi, hcore⟩ := exists_core_of_mem
    (matchLoop_sell_cores sym (sortDesc (book.buy.filter (fun o => o.symbol == sym)))
      (sortAsc (book.sell.filter (fun o => o.symbol == sym))))
    (List.mem_append_right _ ho)
  have hmem : i ∈ book.sell.filter (fun o => o.symbol == sym) := sortAsc_mem.mp hi
  have hsym : i.symbol = sym := by simpa using (List.mem_filter.mp hmem).2
  rw [← (core_fields hcore).2.2.1]
  exact hsym

theorem match_orders_core_uncrossed (book : Book) (sym : String) :
    ∀ x ∈ (match_orders_core book sym).remBuys,
      ∀ y ∈ (match_orders_core book sym).remSells, x.price < y.price :=
  matchLoop_uncrossed sym _ _ (sortDesc_sorted _) (sortAsc_sorted _)


theorem initState_uncrossed : Uncrossed initState := by
  intro b hb
  cases hb

theorem match_orders_book_uncrossed (book : Book) (sym : String)
    (h : ∀ b ∈ book.buy, ∀ s ∈ book.sell,
      b.symbol ≠ sym → s.symbol ≠ sym → b.symbol = s.symbol → b.price < s.price) :
    ∀ b ∈ (match_orders book sym).1.buy, ∀ s ∈ (match_orders book sym).1.sell,
      b.symbol = s.symbol → b.price < s.price := by
  intro b hb s hs hsym
  simp only [match_orders] at hb hs
  rcases List.mem_append.mp hb with hb1 | hb2
  · have hbrem : b ∈ (match_orders_core book sym).remBuys := (List.mem_filter.mp hb1).1
    have hbsym : b.symbol = sym := match_orders_core_remBuys_symbol book sym b hbrem
    rcases List.mem_append.mp hs with hs1 | hs2
    · exact match_orders_core_uncrossed book sym b hbrem s (List.mem_filter.mp hs1).1
    · exfalso
      have : s.symbol ≠ sym := by simpa using (List.mem_filter.mp hs2).2
      exact this (by rw [← hsym, hbsym])
  · have hbold : b ∈ book.buy := (List.mem_filter.mp hb2).1
    have hbns : b.symbol ≠ sym := by simpa using (List.mem_filter.mp hb2).2
    rcases List.mem_append.mp hs with hs1 | hs2
    · exfalso
      have hsrem : s ∈ (match_orders_core book sym).remSells := (List.mem_filter.mp hs1).1
      exact hbns (by rw [hsym, match_orders_core_remSells_symbol book sym s hsrem])
    · have hsold : s ∈ book.sell := (List.mem_filter.mp hs2).1
      have hsns : s.symbol ≠ sym := by simpa using (List.mem_filter.mp hs2).2
      exact h b hbold s hsold hbns hsns hsym

theorem place_order_uncrossed (oracle : String → Option ℚ) (st : EngineState)
    (user_id symbol side : String) (quantity : ℤ) (price : Option ℚ)
    (h : Uncrossed st) :
    Uncrossed (place_order oracle st user_id symbol side quantity price).1 := by
  by_cases hside : side ≠ "buy" ∧ side ≠ "sell"
  · rw [place_order_invalid oracle st user_id symbol side quantity price hside]
    exact h
  · cases hres : (match price with
                  | some q => some q
                  | none => get_market_price oracle symbol) with
    | none =>
      cases price with
      | some q => simp at hres
      | none =>
        rw [place_order_noprice oracle st user_id symbol side quantity hside
          (by simpa [get_market_price] using hres)]
        exact h
    | some pr =>
      rw [place_order_success oracle st user_id symbol side quantity price pr hside hres]
      intro b hb s hs hsym
      refine match_orders_book_uncrossed _ symbol ?_ b hb s hs hsym
      intro b' hb' s' hs' hbns hsns hsym'
      have hsides : side = "buy" ∨ side = "sell" := by
        by_cases h1 : side = "buy"
        · exact Or.inl h1
        · exact Or.inr (by tauto)
      rcases hsides with rfl | rfl
      · rw [Book.push_buy_buy] at hb'
        rw [Book.push_buy_sell] at hs'
        rcases List.mem_append.mp hb' with hb'' | hb''
        · exact h b' hb'' s' hs' hsym'
        · exfalso
          have : b' = _ := List.mem_singleton.mp hb''
          exact hbns (by rw [this])
      · rw [Book.push_sell_buy] at hb'
        rw [Book.push_sell_sell] at hs'
        rcases List.mem_append.mp hs' with hs'' | hs''
        · exact h b' hb' s' hs'' hsym'
        · exfalso
          have : s' = _ := List.mem_singleton.mp hs''
          exact hsns (by rw [this])

theorem runSubs_uncrossed (oracle : String → Option ℚ) (subs : List Submission) :
    Uncrossed (runSubs oracle subs) := by
  have key : ∀ (l : List Submission) (st : EngineState), Uncrossed st →
      Uncrossed (l.foldl (fun st sub =>
        (place_order oracle st sub.user_id sub.symbol sub.side sub.quantity sub.price).1) st) := by
    intro l
    induction l with
    | nil => intro st hst; exact hst
    | cons sub l ih =>
      intro st hst
      exact ih _ (place_order_uncrossed oracle st sub.user_id sub.symbol sub.side
        sub.quantity sub.price hst)
  exact key subs initState initState_uncrossed

theorem filter_ne_filter_eq (l : List Order) (sym S' : String) (hne : S' ≠ sym) :
    (l.filter (fun o => o.symbol != sym)).filter (fun o => o.symbol == S') =
      l.filter (fun o => o.symbol == S') := by
  induction l with
  | nil => rfl
  | cons o l ih =>
    have h4 : sym ≠ S' := fun hx => hne hx.symm
    by_cases h2 : o.symbol = sym
    · have hS : o.symbol ≠ S' := by rw [h2]; exact fun hx => hne hx.symm
      simp [List.filter_cons, h2, hS, h4, hne, ih]
    · simp only [List.filter_cons]
      by_cases h : o.symbol = S' <;> simp [h2, h, h4, hne, ih]

theorem match_orders_filter_frame (book : Book) (sym S' : String) (hne : S' ≠ sym) :
    (match_orders book sym).1.buy.filter (fun o => o.symbol == S') =
      book.buy.filter (fun o => o.symbol == S') ∧
    (match_orders book sym).1.sell.filter (fun o => o.symbol == S') =
      book.sell.filter (fun o => o.symbol == S') := by
  constructor
  · show ((match_orders_core book sym).remBuys.filter (fun o => 0 < o.quantity) ++
      book.buy.filter (fun o => o.symbol != sym)).filter (fun o => o.symbol == S') = _
    rw [List.filter_append]
    have h1 : ((match_orders_core book sym).remBuys.filter (fun o => 0 < o.quantity)).filter
        (fun o => o.symbol == S') = [] := by
      rw [List.filter_eq_nil_iff]
      intro o ho
      have : o.symbol = sym :=
        match_orders_core_remBuys_symbol book sym o (List.mem_filter.mp ho).1
      simp [this]
      exact fun hx => hne hx.symm
    rw [h1, List.nil_append]
    exact filter_ne_filter_eq book.buy sym S' hne
  · show ((match_orders_core book sym).remSells.filter (fun o => 0 < o.quantity) ++
      book.sell.filter (fun o => o.symbol != sym)).filter (fun o => o.symbol == S') = _
    rw [List.filter_append]
    have h1 : ((match_orders_core book sym).remSells.filter (fun o => 0 < o.quantity)).filter
        (fun o => o.symbol == S') = [] := by
      rw [List.filter_eq_nil_iff]
      intro o ho
      have : o.symbol = sym :=
        match_orders_core_remSells_symbol book sym o (List.mem_filter.mp ho).1
      simp [this]
      exact fun hx => hne hx.symm
    rw [h1, List.nil_append]
    exact filter_ne_filter_eq book.sell sym S' hne

end placeOrderLemmas

/-- C1 amended: every trade produced by `match_orders` is priced at the
matched SELL order's limit price (and carries its participant), whichever side
was the aggressor; when the aggressor is a buy this is the resting order's
price, but when the aggressor is a sell the trade still uses the sell — i.e.
the aggressor's — price. -/
theorem c1_amended_sell_price (book : Book) (sym : String) :
    ∀ t ∈ (match_orders book sym).2,
      ∃ s ∈ book.sell, s.symbol = sym ∧ t.price = s.price ∧ t.sell_user_id = s.user_id := by
  intro t ht
  have ht' : t ∈ (match_orders_core book sym).trades := ht
  obtain ⟨s, hs, h1, h2⟩ := matchLoop_seller sym
    (sortDesc (book.buy.filter (fun o => o.symbol == sym)))
    (sortAsc (book.sell.filter (fun o => o.symbol == sym))) t ht'
  have hmem := sortAsc_mem.mp hs
  obtain ⟨hmem2, hsym⟩ := List.mem_filter.mp hmem
  exact ⟨s, hmem2, by simpa using hsym, h1, h2⟩

/-- Witness for the amended C1, on the counterexample book itself: the trade
at price 100 is priced from bob's sell order. -/
theorem c1_amended_sell_price_witness :
    ({ symbol := "ACME", price := 100, quantity := 5,
       buy_user_id := "alice", sell_user_id := "bob" } : Trade) ∈
      (match_orders
        { buy := [{ order_id := "1", user_id := "alice", symbol := "ACME", side := "buy",
                    price := 101, quantity := 5, oid := 0 }],
          sell := [{ order_id := "2", user_id := "bob", symbol := "ACME", side := "sell",
                     price := 100, quantity := 5, oid := 1 }] } "ACME").2 ∧
    (∃ s ∈ ({ buy := [{ order_id := "1", user_id := "alice", symbol := "ACME", side := "buy",
                        price := 101, quantity := 5, oid := 0 }],
              sell := [{ order_id := "2", user_id := "bob", symbol := "ACME", side := "sell",
                         price := 100, quantity := 5, oid := 1 }] } : Book).sell,
        s.symbol = "ACME" ∧
        ({ symbol := "ACME", price := 100, quantity := 5,
           buy_user_id := "alice", sell_user_id := "bob" } : Trade).price = s.price ∧
        ({ symbol := "ACME", price := 100, quantity := 5,
           buy_user_id := "alice", sell_user_id := "bob" } : Trade).sell_user_id = s.user_id) :=
  ⟨by decide,
    c1_amended_sell_price
      { buy := [{ order_id := "1", user_id := "alice", symbol := "ACME", side := "buy",
                  price := 101, quantity := 5, oid := 0 }],
        sell := [{ order_id := "2", user_id := "bob", symbol := "ACME", side := "sell",
                   price := 100, quantity := 5, oid := 1 }] } "ACME"
      { symbol := "ACME", price := 100, quantity := 5,
        buy_user_id := "alice", sell_user_id := "bob" } (by decide)⟩

/-- C4 amended: `place_order` does not validate quantities.  Submitting an
order with `quantity = 0` — either side, explicit or oracle-resolved price —
returns `"success"` rather than an `InvalidQuantity` error; the zero-quantity
order never comes to rest on either book side (the post-match `quantity > 0`
filter drops it); and the call adds no net traded quantity to the history: a
crossing zero-quantity order can append trade records, but each such record
has quantity `0`, leaving the total traded quantity unchanged.  Stated with
the book uncrossed, resting quantities nonnegative and the ghost id fresh, as
holds in every reachable state. -/
theorem c4_amended_zero_qty (oracle : String → Option ℚ) (st : EngineState)
    (uid sym side : String) (pr : Option ℚ) (p : ℚ)
    (hside : side = "buy" ∨ side = "sell")
    (hres : (match pr with
             | some q => some q
             | none => get_market_price oracle sym) = some p)
    (hnnB : ∀ o ∈ st.order_book.buy, 0 ≤ o.quantity)
    (hnnS : ∀ o ∈ st.order_book.sell, 0 ≤ o.quantity)
    (hunc : Uncrossed st)
    (hfresh : ∀ o ∈ st.order_book.buy ++ st.order_book.sell, o.oid ≠ st.next_oid) :
    (∃ o, (place_order oracle st uid sym side 0 pr).2 = PlaceResult.success o ∧
      o.quantity = 0) ∧
    (∀ o ∈ (place_order oracle st uid sym side 0 pr).1.order_book.buy ++
        (place_order oracle st uid sym side 0 pr).1.order_book.sell,
      o.oid ≠ st.next_oid) ∧
    (∃ ts, (place_order oracle st uid sym side 0 pr).1.trade_history =
        st.trade_history ++ ts ∧ (∀ t ∈ ts, t.quantity = 0) ∧
      sumT (place_order oracle st uid sym side 0 pr).1.trade_history =
        sumT st.trade_history) := by
  have hside2 : ¬ (side ≠ "buy" ∧ side ≠ "sell") := by
    rcases hside with rfl | rfl <;> simp
  rw [place_order_success oracle st uid sym side 0 pr p hside2 hres]
  rcases hside with rfl | rfl
  · -- side = "buy": the zero-quantity order joins the buy side
    rw [if_pos (show ("buy" : String) = "buy" from rfl)]
    set agg : Order := { order_id := toString ((st.order_book.side "buy").length +
                            (st.order_book.side (otherSide "buy")).length + 1),
                         user_id := uid, symbol := sym, side := "buy",
                         price := p, quantity := 0, oid := st.next_oid } with hagg
    set bk1 : Book := st.order_book.push "buy" agg with hbk1
    simp only [match_orders, match_orders_core]
    set buysS : List Order := sortDesc (bk1.buy.filter (fun o => o.symbol == sym)) with hbuysS
    set sellsS : List Order := sortAsc (bk1.sell.filter (fun o => o.symbol == sym)) with hsellsS
    have hbmem : ∀ z ∈ buysS, (z ∈ st.order_book.buy ∧ z.symbol = sym) ∨ z = agg := by
      intro z hz
      rw [hbuysS] at hz
      have h1 := List.mem_filter.mp (sortDesc_mem.mp hz)
      rw [hbk1, Book.push_buy_buy] at h1
      rcases List.mem_append.mp h1.1 with h2 | h2
      · exact Or.inl ⟨h2, by simpa using h1.2⟩
      · exact Or.inr (List.mem_singleton.mp h2)
    have hsmem : ∀ z ∈ sellsS, z ∈ st.order_book.sell ∧ z.symbol = sym := by
      intro z hz
      rw [hsellsS] at hz
      have h1 := List.mem_filter.mp (sortAsc_mem.mp hz)
      rw [hbk1, Book.push_buy_sell] at h1
      exact ⟨h1.1, by simpa using h1.2⟩
    have hqB : ∀ z ∈ buysS, 0 ≤ z.quantity := by
      intro z hz
      rcases hbmem z hz with ⟨h2, -⟩ | h2
      · exact hnnB z h2
      · rw [h2, hagg]
    have hqS : ∀ z ∈ sellsS, 0 ≤ z.quantity :=
      fun z hz => hnnS z (hsmem z hz).1
    have hcz : ∀ zb ∈ buysS, ∀ zs ∈ sellsS, zs.price ≤ zb.price →
        zb.quantity = 0 ∨ zs.quantity = 0 := by
      intro zb hzb zs hzs hple
      rcases hbmem zb hzb with ⟨h2, h3⟩ | h2
      · exfalso
        obtain ⟨h4, h5⟩ := hsmem zs hzs
        exact absurd hple (not_le.mpr (hunc zb h2 zs h4 (h3.trans h5.symm)))
      · exact Or.inl (by rw [h2, hagg])
    have htr0 : ∀ t ∈ (matchLoop sym buysS sellsS).trades, t.quantity = 0 :=
      matchLoop_no_cross_trades sym buysS sellsS hqB hqS hcz
    have hzid : ∀ z ∈ buysS, z.oid = st.next_oid → z.quantity = 0 := by
      intro z hz hzo
      rcases hbmem z hz with ⟨h2, -⟩ | h2
      · exact absurd hzo (hfresh z (List.mem_append_left _ h2))
      · rw [h2, hagg]
    have hzero := matchLoop_zero_qty sym buysS sellsS st.next_oid hzid hqS
    have haggS : agg ∈ buysS := by
      rw [hbuysS]
      refine sortDesc_mem.mpr (List.mem_filter.mpr ⟨?_, by rw [hagg]; simp⟩)
      rw [hbk1, Book.push_buy_buy]
      exact List.mem_append_right _ (by simp)
    cases hfind : ((matchLoop sym buysS sellsS).passedBuys ++
        (matchLoop sym buysS sellsS).remBuys).find? (fun o => o.oid == st.next_oid) with
    | none =>
      exfalso
      obtain ⟨o2, ho2, hcore2⟩ := exists_core_of_mem
        (matchLoop_buy_cores sym buysS sellsS).symm haggS
      have h1 : o2.oid = st.next_oid := by
        have h2 : o2.oid = agg.oid := (core_fields hcore2).2.2.2.2.2
        rw [h2, hagg]
      have h3 := List.find?_eq_none.mp hfind o2 ho2
      simp [h1] at h3
    | some o =>
      have hoid : o.oid = st.next_oid := by
        have := List.find?_some hfind
        simpa using this
      have homem := List.mem_of_find?_eq_some hfind
      refine ⟨⟨o, rfl, hzero o homem hoid⟩, ?_, ?_⟩
      · intro z hz
        rcases List.mem_append.mp hz with hz1 | hz2
        · rcases List.mem_append.mp hz1 with hz3 | hz4
          · obtain ⟨hzrem, hzpos⟩ := List.mem_filter.mp hz3
            intro hzo
            have := hzero z (List.mem_append_right _ hzrem) hzo
            simp only [this] at hzpos
            exact absurd (by simpa using hzpos) (lt_irrefl (0 : ℤ))
          · obtain ⟨hzmem, hzs⟩ := List.mem_filter.mp hz4
            rw [hbk1, Book.push_buy_buy] at hzmem
            rcases List.mem_append.mp hzmem with hz5 | hz5
            · exact hfresh z (List.mem_append_left _ hz5)
            · exfalso
              rw [List.mem_singleton.mp hz5, hagg] at hzs
              simp at hzs
        · rcases List.mem_append.mp hz2 with hz3 | hz4
          · have hzrem := (List.mem_filter.mp hz3).1
            obtain ⟨s2, hs2, hcore2⟩ := exists_core_of_mem
              (matchLoop_sell_cores sym buysS sellsS) (List.mem_append_right _ hzrem)
            rw [← (core_fields hcore2).2.2.2.2.2]
            exact hfresh s2 (List.mem_append_right _ (hsmem s2 hs2).1)
          · have hzmem := (List.mem_filter.mp hz4).1
            rw [hbk1, Book.push_buy_sell] at hzmem
            exact hfresh z (List.mem_append_right _ hzmem)
      · refine ⟨(matchLoop sym buysS sellsS).trades, rfl, htr0, ?_⟩
        rw [sumT_append, sumT_all_zero htr0]
        omega
  · -- side = "sell": the zero-quantity order joins the sell side
    rw [if_neg (show ¬ ("sell" : String) = "buy" by decide)]
    set agg : Order := { order_id := toString ((st.order_book.side "sell").length +
                            (st.order_book.side (otherSide "sell")).length + 1),
                         user_id := uid, symbol := sym, side := "sell",
                         price := p, quantity := 0, oid := st.next_oid } with hagg
    set bk1 : Book := st.order_book.push "sell" agg with hbk1
    simp only [match_orders, match_orders_core]
    set buysS : List Order := sortDesc (bk1.buy.filter (fun o => o.symbol == sym)) with hbuysS
    set sellsS : List Order := sortAsc (bk1.sell.filter (fun o => o.symbol == sym)) with hsellsS
    have hbmem : ∀ z ∈ buysS, z ∈ st.order_book.buy ∧ z.symbol = sym := by
      intro z hz
      rw [hbuysS] at hz
      have h1 := List.mem_filter.mp (sortDesc_mem.mp hz)
      rw [hbk1, Book.push_sell_buy] at h1
      exact ⟨h1.1, by simpa using h1.2⟩
    have hsmem : ∀ z ∈ sellsS, (z ∈ st.order_book.sell ∧ z.symbol = sym) ∨ z = agg := by
      intro z hz
      rw [hsellsS] at hz
      have h1 := List.mem_filter.mp (sortAsc_mem.mp hz)
      rw [hbk1, Book.push_sell_sell] at h1
      rcases List.mem_append.mp h1.1 with h2 | h2
      · exact Or.inl ⟨h2, by simpa using h1.2⟩
      · exact Or.inr (List.mem_singleton.mp h2)
    have hqB : ∀ z ∈ buysS, 0 ≤ z.quantity :=
      fun z hz => hnnB z (hbmem z hz).1
    have hqS : ∀ z ∈ sellsS, 0 ≤ z.quantity := by
      intro z hz
      rcases hsmem z hz with ⟨h2, -⟩ | h2
      · exact hnnS z h2
      · rw [h2, hagg]
    have hcz : ∀ zb ∈ buysS, ∀ zs ∈ sellsS, zs.price ≤ zb.price →
        zb.quantity = 0 ∨ zs.quantity = 0 := by
      intro zb hzb zs hzs hple
      rcases hsmem zs hzs with ⟨h4, h5⟩ | h4
      · exfalso
        obtain ⟨h2, h3⟩ := hbmem zb hzb
        exact absurd hple (not_le.mpr (hunc zb h2 zs h4 (h3.trans h5.symm)))
      · exact Or.inr (by rw [h4, hagg])
    have htr0 : ∀ t ∈ (matchLoop sym buysS sellsS).trades, t.quantity = 0 :=
      matchLoop_no_cross_trades sym buysS sellsS hqB hqS hcz
    have hzid : ∀ z ∈ sellsS, z.oid = st.next_oid → z.quantity = 0 := by
      intro z hz hzo
      rcases hsmem z hz with ⟨h2, -⟩ | h2
      · exact absurd hzo (hfresh z (List.mem_append_right _ h2))
      · rw [h2, hagg]
    have hzero := matchLoop_zero_qty_sell sym buysS sellsS st.next_oid hzid hqB
    have haggS : agg ∈ sellsS := by
      rw [hsellsS]
      refine sortAsc_mem.mpr (List.mem_filter.mpr ⟨?_, by rw [hagg]; simp⟩)
      rw [hbk1, Book.push_sell_sell]
      exact List.mem_append_right _ (by simp)
    cases hfind : ((matchLoop sym buysS sellsS).passedSells ++
        (matchLoop sym buysS sellsS).remSells).find? (fun o => o.oid == st.next_oid) with
    | none =>
      exfalso
      obtain ⟨o2, ho2, hcore2⟩ := exists_core_of_mem
        (matchLoop_sell_cores sym buysS sellsS).symm haggS
      have h1 : o2.oid = st.next_oid := by
        have h2 : o2.oid = agg.oid := (core_fields hcore2).2.2.2.2.2
        rw [h2, hagg]
      have h3 := List.find?_eq_none.mp hfind o2 ho2
      simp [h1] at h3
    | some o =>
      have hoid : o.oid = st.next_oid := by
        have := List.find?_some hfind
        simpa using this
      have homem := List.mem_of_find?_eq_some hfind
      refine ⟨⟨o, rfl, hzero o homem hoid⟩, ?_, ?_⟩
      · intro z hz
        rcases List.mem_append.mp hz with hz1 | hz2
        · rcases List.mem_append.mp hz1 with hz3 | hz4
          · have hzrem := (List.mem_filter.mp hz3).1
            obtain ⟨b2, hb2, hcore2⟩ := exists_core_of_mem
              (matchLoop_buy_cores sym buysS sellsS) (List.mem_append_right _ hzrem)
            rw [← (core_fields hcore2).2.2.2.2.2]
            exact hfresh b2 (List.mem_append_left _ (hbmem b2 hb2).1)
          · have hzmem := (List.mem_filter.mp hz4).1
            rw [hbk1, Book.push_sell_buy] at hzmem
            exact hfresh z (List.mem_append_left _ hzmem)
        · rcases List.mem_append.mp hz2 with hz3 | hz4
          · obtain ⟨hzrem, hzpos⟩ := List.mem_filter.mp hz3
            intro hzo
            have := hzero z (List.mem_append_right _ hzrem) hzo
            simp only [this] at hzpos
            exact absurd (by simpa using hzpos) (lt_irrefl (0 : ℤ))
          · obtain ⟨hzmem, hzs⟩ := List.mem_filter.mp hz4
            rw [hbk1, Book.push_sell_sell] at hzmem
            rcases List.mem_append.mp hzmem with hz5 | hz5
            · exact hfresh z (List.mem_append_right _ hz5)
            · exfalso
              rw [List.mem_singleton.mp hz5, hagg] at hzs
              simp at hzs
      · refine ⟨(matchLoop sym buysS sellsS).trades, rfl, htr0, ?_⟩
        rw [sumT_append, sumT_all_zero htr0]
        omega

/-- Witness for the amended C4: against a resting sell of 5 @ 100, a
zero-quantity buy at 120 crosses, returns success, appends only a
zero-quantity trade record, and never rests. -/
theorem c4_amended_zero_qty_witness :
    (∀ o ∈ ((place_order (fun _ => none) initState "alice" "ACME" "sell" 5 (some 100)).1).order_book.buy,
      0 ≤ o.quantity) ∧
    (∀ o ∈ ((place_order (fun _ => none) initState "alice" "ACME" "sell" 5 (some 100)).1).order_book.sell,
      0 ≤ o.quantity) ∧
    Uncrossed ((place_order (fun _ => none) initState "alice" "ACME" "sell" 5 (some 100)).1) ∧
    ((∃ o, (place_order (fun _ => none)
        ((place_order (fun _ => none) initState "alice" "ACME" "sell" 5 (some 100)).1)
        "zed" "ACME" "buy" 0 (some 120)).2 = PlaceResult.success o ∧ o.quantity = 0) ∧
      (∀ o ∈ (place_order (fun _ => none)
          ((place_order (fun _ => none) initState "alice" "ACME" "sell" 5 (some 100)).1)
          "zed" "ACME" "buy" 0 (some 120)).1.order_book.buy ++
          (place_order (fun _ => none)
          ((place_order (fun _ => none) initState "alice" "ACME" "sell" 5 (some 100)).1)
          "zed" "ACME" "buy" 0 (some 120)).1.order_book.sell,
        o.oid ≠ ((place_order (fun _ => none) initState "alice" "ACME" "sell" 5 (some 100)).1).next_oid) ∧
      (∃ ts, (place_order (fun _ => none)
          ((place_order (fun _ => none) initState "alice" "ACME" "sell" 5 (some 100)).1)
          "zed" "ACME" "buy" 0 (some 120)).1.trade_history =
          ((place_order (fun _ => none) initState "alice" "ACME" "sell" 5 (some 100)).1).trade_history ++ ts ∧
        (∀ t ∈ ts, t.quantity = 0) ∧
        sumT (place_order (fun _ => none)
          ((place_order (fun _ => none) initState "alice" "ACME" "sell" 5 (some 100)).1)
          "zed" "ACME" "buy" 0 (some 120)).1.trade_history =
          sumT ((place_order (fun _ => none) initState "alice" "ACME" "sell" 5 (some 100)).1).trade_history)) :=
  ⟨by decide, by decide, by decide,
    c4_amended_zero_qty (fun _ => none)
      ((place_order (fun _ => none) initState "alice" "ACME" "sell" 5 (some 100)).1)
      "zed" "ACME" "buy" (some 120) 120 (Or.inl rfl) rfl
      (by decide) (by decide) (by decide) (by decide)⟩

/-- C3: quantity behaviour of the matching loop, for pairwise-distinct
participants and nonnegative quantities.  (1) every trade's quantity is the
`min` of the two matched orders' remaining quantities at that moment (the
remaining quantity being the original minus the fills already attributed to
that participant by the earlier trades of the run); (2)/(3) each buy and each
sell order's quantity drops by exactly the total quantity attributed to its
participant — trades decrement both sides by exactly the trade quantity; and
(4)/(5) the total traded quantity attributed to one order never exceeds the
quantity it entered the loop with. -/
theorem c3_quantity_conservation (sym : String) (buys sells : List Order)
    (hbu : buys.Pairwise usersNe) (hsu : sells.Pairwise usersNe)
    (hbq : ∀ b ∈ buys, 0 ≤ b.quantity) (hsq : ∀ s ∈ sells, 0 ≤ s.quantity) :
    (∀ ts1 t ts2, (matchLoop sym buys sells).trades = ts1 ++ t :: ts2 →
      ∀ b ∈ buys, b.user_id = t.buy_user_id →
        ∀ s ∈ sells, s.user_id = t.sell_user_id →
          t.quantity = min (b.quantity - attrB ts1 b.user_id)
            (s.quantity - attrS ts1 s.user_id)) ∧
    (∀ b ∈ buys,
      ∀ o ∈ (matchLoop sym buys sells).passedBuys ++ (matchLoop sym buys sells).remBuys,
        o.user_id = b.user_id →
          o.quantity + attrB (matchLoop sym buys sells).trades b.user_id = b.quantity) ∧
    (∀ s ∈ sells,
      ∀ o ∈ (matchLoop sym buys sells).passedSells ++ (matchLoop sym buys sells).remSells,
        o.user_id = s.user_id →
          o.quantity + attrS (matchLoop sym buys sells).trades s.user_id = s.quantity) ∧
    (∀ b ∈ buys, attrB (matchLoop sym buys sells).trades b.user_id ≤ b.quantity) ∧
    (∀ s ∈ sells, attrS (matchLoop sym buys sells).trades s.user_id ≤ s.quantity) := by
  refine ⟨matchLoop_min sym buys sells hbu hsu, matchLoop_attrB sym buys sells hbu,
    fun s hs o ho huo => (matchLoop_attrS sym buys sells hsu s hs o ho huo).2, ?_, ?_⟩
  · intro b hb
    obtain ⟨o, ho, hcore⟩ := exists_core_of_mem (matchLoop_buy_cores sym buys sells).symm hb
    have huo : o.user_id = b.user_id := (core_fields hcore).2.1
    have hcons := matchLoop_attrB sym buys sells hbu b hb o ho huo
    have hnn : 0 ≤ o.quantity := by
      rcases List.mem_append.mp ho with h1 | h2
      · rw [matchLoop_passedBuys_zero sym buys sells o h1]
      · exact matchLoop_remBuys_nonneg sym buys sells hbq o h2
    omega
  · intro s hs
    obtain ⟨o, ho, hcore⟩ := exists_core_of_mem (matchLoop_sell_cores sym buys sells).symm hs
    have huo : o.user_id = s.user_id := (core_fields hcore).2.1
    have hcons := (matchLoop_attrS sym buys sells hsu s hs o ho huo).2
    have hnn : 0 ≤ o.quantity := by
      rcases List.mem_append.mp ho with h1 | h2
      · rw [matchLoop_passedSells_zero sym buys sells o h1]
      · exact matchLoop_remSells_nonneg sym buys sells hsq o h2
    omega


/-- Witness for C3, on a run with one buy against two sells (one full fill at
99, then a break at 101). -/
theorem c3_quantity_conservation_witness :
    (c3wBuys.Pairwise usersNe ∧ c3wSells.Pairwise usersNe) ∧
    ((∀ b ∈ c3wBuys, 0 ≤ b.quantity) ∧ (∀ s ∈ c3wSells, 0 ≤ s.quantity)) ∧
    (∀ b ∈ c3wBuys,
      attrB (matchLoop "ACME" c3wBuys c3wSells).trades b.user_id ≤ b.quantity) :=
  ⟨⟨by decide, by decide⟩, ⟨by decide, by decide⟩,
    (c3_quantity_conservation "ACME" c3wBuys c3wSells
      (by decide) (by decide) (by decide) (by decide)).2.2.2.1⟩

theorem usersNe_symm : Symmetric usersNe := fun _ _ h => Ne.symm h

/-- C9 amended: a successful submission — either side, explicit or
oracle-resolved price — returns `success` carrying the submitted order's
final (post-match) state: same participant, symbol, side and resolved price,
quantity equal to the submitted quantity minus the quantity filled by this
call's trades.  The trades themselves are appended to `trade_history` and are
NOT part of the returned value.  Stated for fresh object ids and distinct
participants, as holds in reachable states. -/
theorem c9_amended_report (oracle : String → Option ℚ) (st : EngineState)
    (uid sym side : String) (qty : ℤ) (pr : Option ℚ) (p : ℚ)
    (hside : side = "buy" ∨ side = "sell")
    (hres : (match pr with
             | some q => some q
             | none => get_market_price oracle sym) = some p)
    (hfresh : ∀ o ∈ st.order_book.buy ++ st.order_book.sell, o.oid ≠ st.next_oid)
    (hub : (st.order_book.buy.filter (fun o => o.symbol == sym)).Pairwise usersNe)
    (hus : (st.order_book.sell.filter (fun o => o.symbol == sym)).Pairwise usersNe)
    (huidb : ∀ o ∈ st.order_book.buy.filter (fun o => o.symbol == sym), o.user_id ≠ uid)
    (huids : ∀ o ∈ st.order_book.sell.filter (fun o => o.symbol == sym), o.user_id ≠ uid) :
    ∃ o, (place_order oracle st uid sym side qty pr).2 = PlaceResult.success o ∧
      o.user_id = uid ∧ o.symbol = sym ∧ o.side = side ∧ o.price = p ∧
      ∃ ts, (place_order oracle st uid sym side qty pr).1.trade_history =
          st.trade_history ++ ts ∧
        (side = "buy" → o.quantity = qty - attrB ts uid) ∧
        (side = "sell" → o.quantity = qty - attrS ts uid) := by
  have hside2 : ¬ (side ≠ "buy" ∧ side ≠ "sell") := by
    rcases hside with rfl | rfl <;> simp
  rw [place_order_success oracle st uid sym side qty pr p hside2 hres]
  rcases hside with rfl | rfl
  · -- side = "buy"
    rw [if_pos (show ("buy" : String) = "buy" from rfl)]
    set agg : Order := { order_id := toString ((st.order_book.side "buy").length +
                            (st.order_book.side (otherSide "buy")).length + 1),
                         user_id := uid, symbol := sym, side := "buy",
                         price := p, quantity := qty, oid := st.next_oid } with hagg
    set bk1 : Book := st.order_book.push "buy" agg with hbk1
    simp only [match_orders, match_orders_core]
    set buysS : List Order := sortDesc (bk1.buy.filter (fun o => o.symbol == sym)) with hbuysS
    set sellsS : List Order := sortAsc (bk1.sell.filter (fun o => o.symbol == sym)) with hsellsS
    have haggfil : agg ∈ bk1.buy.filter (fun o => o.symbol == sym) := by
      rw [hbk1, Book.push_buy_buy]
      refine List.mem_filter.mpr ⟨List.mem_append_right _ (by simp), by rw [hagg]; simp⟩
    have haggS : agg ∈ buysS := by rw [hbuysS]; exact sortDesc_mem.mpr haggfil
    have hfilter_eq : bk1.buy.filter (fun o => o.symbol == sym) =
        st.order_book.buy.filter (fun o => o.symbol == sym) ++ [agg] := by
      rw [hbk1, Book.push_buy_buy, List.filter_append]
      have : List.filter (fun o => o.symbol == sym) [agg] = [agg] := by
        rw [hagg]; simp
      rw [this]
    have huS : buysS.Pairwise usersNe := by
      rw [hbuysS]
      refine (List.Perm.pairwise_iff (fun h => Ne.symm h) (sortDesc_perm _)).mpr ?_
      rw [hfilter_eq]
      refine List.pairwise_append.mpr ⟨hub, by simp, ?_⟩
      intro x hx y hy
      have hy2 : y = agg := List.mem_singleton.mp hy
      rw [hy2, hagg]
      exact huidb x hx
    cases hfind : ((matchLoop sym buysS sellsS).passedBuys ++
        (matchLoop sym buysS sellsS).remBuys).find? (fun o => o.oid == st.next_oid) with
    | none =>
      exfalso
      obtain ⟨o2, ho2, hcore2⟩ := exists_core_of_mem
        (matchLoop_buy_cores sym buysS sellsS).symm haggS
      have h1 : o2.oid = st.next_oid := by
        have h2 : o2.oid = agg.oid := (core_fields hcore2).2.2.2.2.2
        rw [h2, hagg]
      have h3 := List.find?_eq_none.mp hfind o2 ho2
      simp [h1] at h3
    | some o =>
      have hoid : o.oid = st.next_oid := by
        have := List.find?_some hfind
        simpa using this
      have homem := List.mem_of_find?_eq_some hfind
      obtain ⟨i, hiS, hicore⟩ := exists_core_of_mem (matchLoop_buy_cores sym buysS sellsS) homem
      have hioid : i.oid = st.next_oid := by
        rw [(core_fields hicore).2.2.2.2.2, hoid]
      have hiagg : i = agg := by
        have hifil : i ∈ bk1.buy.filter (fun o => o.symbol == sym) := by
          rw [hbuysS] at hiS
          exact sortDesc_mem.mp hiS
        rw [hfilter_eq] at hifil
        rcases List.mem_append.mp hifil with h1 | h1
        · exact absurd hioid (hfresh i (List.mem_append_left _ (List.mem_filter.mp h1).1))
        · exact List.mem_singleton.mp h1
      have hfields := core_fields (hiagg ▸ hicore)
      have hu1 : o.user_id = uid := by rw [← hfields.2.1, hagg]
      have hu2 : o.symbol = sym := by rw [← hfields.2.2.1, hagg]
      have hu3 : o.side = "buy" := by rw [← hfields.2.2.2.1, hagg]
      have hu4 : o.price = p := by rw [← hfields.2.2.2.2.1, hagg]
      refine ⟨o, rfl, hu1, hu2, hu3, hu4, (matchLoop sym buysS sellsS).trades, rfl,
        fun _ => ?_, fun hbad => absurd hbad (by decide)⟩
      have hcons := matchLoop_attrB sym buysS sellsS huS agg haggS o homem
        (by rw [hu1, hagg])
      have haggu : agg.user_id = uid := by rw [hagg]
      have haggq : agg.quantity = qty := by rw [hagg]
      rw [haggu, haggq] at hcons
      omega
  · -- side = "sell"
    rw [if_neg (show ¬ ("sell" : String) = "buy" by decide)]
    set agg : Order := { order_id := toString ((st.order_book.side "sell").length +
                            (st.order_book.side (otherSide "sell")).length + 1),
                         user_id := uid, symbol := sym, side := "sell",
                         price := p, quantity := qty, oid := st.next_oid } with hagg
    set bk1 : Book := st.order_book.push "sell" agg with hbk1
    simp only [match_orders, match_orders_core]
    set buysS : List Order := sortDesc (bk1.buy.filter (fun o => o.symbol == sym)) with hbuysS
    set sellsS : List Order := sortAsc (bk1.sell.filter (fun o => o.symbol == sym)) with hsellsS
    have haggfil : agg ∈ bk1.sell.filter (fun o => o.symbol == sym) := by
      rw [hbk1, Book.push_sell_sell]
      refine List.mem_filter.mpr ⟨List.mem_append_right _ (by simp), by rw [hagg]; simp⟩
    have haggS : agg ∈ sellsS := by rw [hsellsS]; exact sortAsc_mem.mpr haggfil
    have hfilter_eq : bk1.sell.filter (fun o => o.symbol == sym) =
        st.order_book.sell.filter (fun o => o.symbol == sym) ++ [agg] := by
      rw [hbk1, Book.push_sell_sell, List.filter_append]
      have : List.filter (fun o => o.symbol == sym) [agg] = [agg] := by
        rw [hagg]; simp
      rw [this]
    have huS : sellsS.Pairwise usersNe := by
      rw [hsellsS]
      refine (List.Perm.pairwise_iff (fun h => Ne.symm h) (sortAsc_perm _)).mpr ?_
      rw [hfilter_eq]
      refine List.pairwise_append.mpr ⟨hus, by simp, ?_⟩
      intro x hx y hy
      have hy2 : y = agg := List.mem_singleton.mp hy
      rw [hy2, hagg]
      exact huids x hx
    cases hfind : ((matchLoop sym buysS sellsS).passedSells ++
        (matchLoop sym buysS sellsS).remSells).find? (fun o => o.oid == st.next_oid) with
    | none =>
      exfalso
      obtain ⟨o2, ho2, hcore2⟩ := exists_core_of_mem
        (matchLoop_sell_cores sym buysS sellsS).symm haggS
      have h1 : o2.oid = st.next_oid := by
        have h2 : o2.oid = agg.oid := (core_fields hcore2).2.2.2.2.2
        rw [h2, hagg]
      have h3 := List.find?_eq_none.mp hfind o2 ho2
      simp [h1] at h3
    | some o =>
      have hoid : o.oid = st.next_oid := by
        have := List.find?_some hfind
        simpa using this
      have homem := List.mem_of_find?_eq_some hfind
      obtain ⟨i, hiS, hicore⟩ := exists_core_of_mem (matchLoop_sell_cores sym buysS sellsS) homem
      have hioid : i.oid = st.next_oid := by
        rw [(core_fields hicore).2.2.2.2.2, hoid]
      have hiagg : i = agg := by
        have hifil : i ∈ bk1.sell.filter (fun o => o.symbol == sym) := by
          rw [hsellsS] at hiS
          exact sortAsc_mem.mp hiS
        rw [hfilter_eq] at hifil
        rcases List.mem_append.mp hifil with h1 | h1
        · exact absurd hioid (hfresh i (List.mem_append_right _ (List.mem_filter.mp h1).1))
        · exact List.mem_singleton.mp h1
      have hfields := core_fields (hiagg ▸ hicore)
      have hu1 : o.user_id = uid := by rw [← hfields.2.1, hagg]
      have hu2 : o.symbol = sym := by rw [← hfields.2.2.1, hagg]
      have hu3 : o.side = "sell" := by rw [← hfields.2.2.2.1, hagg]
      have hu4 : o.price = p := by rw [← hfields.2.2.2.2.1, hagg]
      refine ⟨o, rfl, hu1, hu2, hu3, hu4, (matchLoop sym buysS sellsS).trades, rfl,
        fun hbad => absurd hbad (by decide), fun _ => ?_⟩
      have hcons := (matchLoop_attrS sym buysS sellsS huS agg haggS o homem
        (by rw [hu1, hagg])).2
      have haggu : agg.user_id = uid := by rw [hagg]
      have haggq : agg.quantity = qty := by rw [hagg]
      rw [haggu, haggq] at hcons
      omega

/-- Witness for the amended C9: against a resting buy of 5 @ 100, bob submits
a market sell of 10 whose price the oracle resolves to 99 — the report
carries bob's order with remaining quantity 10 - 5 = 5, and the call's trades
go to the history, not the report. -/
theorem c9_amended_report_witness :
    (∀ o ∈ ((place_order (fun _ => some 99) initState "alice" "ACME" "buy" 5 (some 100)).1).order_book.buy ++
        ((place_order (fun _ => some 99) initState "alice" "ACME" "buy" 5 (some 100)).1).order_book.sell,
      o.oid ≠ ((place_order (fun _ => some 99) initState "alice" "ACME" "buy" 5 (some 100)).1).next_oid) ∧
    (∃ o, (place_order (fun _ => some 99)
        ((place_order (fun _ => some 99) initState "alice" "ACME" "buy" 5 (some 100)).1)
        "bob" "ACME" "sell" 10 none).2 = PlaceResult.success o ∧
      o.user_id = "bob" ∧ o.symbol = "ACME" ∧ o.side = "sell" ∧ o.price = 99 ∧
      ∃ ts, (place_order (fun _ => some 99)
          ((place_order (fun _ => some 99) initState "alice" "ACME" "buy" 5 (some 100)).1)
          "bob" "ACME" "sell" 10 none).1.trade_history =
          ((place_order (fun _ => some 99) initState "alice" "ACME" "buy" 5 (some 100)).1).trade_history ++ ts ∧
        (("sell" : String) = "buy" → o.quantity = 10 - attrB ts "bob") ∧
        (("sell" : String) = "sell" → o.quantity = 10 - attrS ts "bob")) :=
  ⟨by decide,
    c9_amended_report (fun _ => some 99)
      ((place_order (fun _ => some 99) initState "alice" "ACME" "buy" 5 (some 100)).1)
      "bob" "ACME" "sell" 10 none 99 (Or.inr rfl) rfl (by decide) (by decide) (by decide)
      (by decide) (by decide)⟩

theorem initState_wf : BookWF initState := by
  refine ⟨List.Pairwise.nil, List.Pairwise.nil, ?_⟩
  intro o ho
  cases ho

theorem rord_desc_hP : ∀ x y : Order, x.price < y.price → Rord y x :=
  fun _ _ hlt _ hpe => absurd hpe (ne_of_gt hlt)

theorem rord_asc_hP : ∀ x y : Order, y.price < x.price → Rord y x :=
  fun _ _ hlt _ hpe => absurd hpe (ne_of_lt hlt)

theorem rord_q_blind : ∀ (x y : Order) (q q' : ℤ), Rord x y →
    Rord { x with quantity := q } { y with quantity := q' } :=
  fun _ _ _ _ h => h

theorem match_orders_wf (book : Book) (sym : String) (n : Nat)
    (hb : book.buy.Pairwise Rord) (hs : book.sell.Pairwise Rord)
    (hoid : ∀ o ∈ book.buy ++ book.sell, o.oid < n) :
    (match_orders book sym).1.buy.Pairwise Rord ∧
    (match_orders book sym).1.sell.Pairwise Rord ∧
    (∀ o ∈ (match_orders book sym).1.buy ++ (match_orders book sym).1.sell, o.oid < n) := by
  have hbf : (book.buy.filter (fun o => o.symbol == sym)).Pairwise Rord :=
    List.Pairwise.sublist (List.filter_sublist _) hb
  have hsf : (book.sell.filter (fun o => o.symbol == sym)).Pairwise Rord :=
    List.Pairwise.sublist (List.filter_sublist _) hs
  have hrb : (match_orders_core book sym).remBuys.Pairwise Rord :=
    matchLoop_rem_buys_pairwise rord_q_blind sym _ (sortDesc_pairwise rord_desc_hP hbf)
  have hrs : (match_orders_core book sym).remSells.Pairwise Rord :=
    matchLoop_rem_sells_pairwise rord_q_blind sym _ (sortAsc_pairwise rord_asc_hP hsf)
  have hrboid : ∀ o ∈ (match_orders_core book sym).remBuys, o.oid < n := by
    intro o ho
    obtain ⟨i, hi, hcore⟩ := exists_core_of_mem
      (matchLoop_buy_cores sym (sortDesc (book.buy.filter (fun o => o.symbol == sym)))
        (sortAsc (book.sell.filter (fun o => o.symbol == sym))))
      (List.mem_append_right _ ho)
    have : i.oid = o.oid := (core_fields hcore).2.2.2.2.2
    rw [← this]
    exact hoid i (List.mem_append_left _ (List.mem_filter.mp (sortDesc_mem.mp hi)).1)
  have hrsoid : ∀ o ∈ (match_orders_core book sym).remSells, o.oid < n := by
    intro o ho
    obtain ⟨i, hi, hcore⟩ := exists_core_of_mem
      (matchLoop_sell_cores sym (sortDesc (book.buy.filter (fun o => o.symbol == sym)))
        (sortAsc (book.sell.filter (fun o => o.symbol == sym))))
      (List.mem_append_right _ ho)
    have : i.oid = o.oid := (core_fields hcore).2.2.2.2.2
    rw [← this]
    exact hoid i (List.mem_append_right _ (List.mem_filter.mp (sortAsc_mem.mp hi)).1)
  refine ⟨?_, ?_, ?_⟩
  · show ((match_orders_core book sym).remBuys.filter (fun o => 0 < o.quantity) ++
      book.buy.filter (fun o => o.symbol != sym)).Pairwise Rord
    refine List.pairwise_append.mpr
      ⟨List.Pairwise.sublist (List.filter_sublist _) hrb,
       List.Pairwise.sublist (List.filter_sublist _) hb, ?_⟩
    intro x hx y hy
    intro hsym
    exfalso
    have hxs : x.symbol = sym :=
      match_orders_core_remBuys_symbol book sym x (List.mem_filter.mp hx).1
    have hys : y.symbol ≠ sym := by simpa using (List.mem_filter.mp hy).2
    exact hys (by rw [← hsym, hxs])
  · show ((match_orders_core book sym).remSells.filter (fun o => 0 < o.quantity) ++
      book.sell.filter (fun o => o.symbol != sym)).Pairwise Rord
    refine List.pairwise_append.mpr
      ⟨List.Pairwise.sublist (List.filter_sublist _) hrs,
       List.Pairwise.sublist (List.filter_sublist _) hs, ?_⟩
    intro x hx y hy
    intro hsym
    exfalso
    have hxs : x.symbol = sym :=
      match_orders_core_remSells_symbol book sym x (List.mem_filter.mp hx).1
    have hys : y.symbol ≠ sym := by simpa using (List.mem_filter.mp hy).2
    exact hys (by rw [← hsym, hxs])
  · intro o ho
    rcases List.mem_append.mp ho with h1 | h2
    · rcases List.mem_append.mp h1 with h3 | h4
      · exact hrboid o (List.mem_filter.mp h3).1
      · exact hoid o (List.mem_append_left _ (List.mem_filter.mp h4).1)
    · rcases List.mem_append.mp h2 with h3 | h4
      · exact hrsoid o (List.mem_filter.mp h3).1
      · exact hoid o (List.mem_append_right _ (List.mem_filter.mp h4).1)

theorem place_order_wf (oracle : String → Option ℚ) (st : EngineState)
    (user_id symbol side : String) (quantity : ℤ) (price : Option ℚ)
    (h : BookWF st) :
    BookWF (place_order oracle st user_id symbol side quantity price).1 := by
  obtain ⟨h1, h2, h3⟩ := h
  by_cases hside : side ≠ "buy" ∧ side ≠ "sell"
  · rw [place_order_invalid oracle st user_id symbol side quantity price hside]
    exact ⟨h1, h2, h3⟩
  · cases hres : (match price with
                  | some q => some q
                  | none => get_market_price oracle symbol) with
    | none =>
      cases price with
      | some q => simp at hres
      | none =>
        rw [place_order_noprice oracle st user_id symbol side quantity hside
          (by simpa [get_market_price] using hres)]
        exact ⟨h1, h2, h3⟩
    | some pr =>
      rw [place_order_success oracle st user_id symbol side quantity price pr hside hres]
      have hsides : side = "buy" ∨ side = "sell" := by
        by_cases hx : side = "buy"
        · exact Or.inl hx
        · exact Or.inr (by tauto)
      have hb' : (st.order_book.push side
          { order_id := toString ((st.order_book.side side).length +
                                  (st.order_book.side (otherSide side)).length + 1),
            user_id := user_id, symbol := symbol, side := side,
            price := pr, quantity := quantity, oid := st.next_oid }).buy.Pairwise Rord ∧
          (st.order_book.push side
          { order_id := toString ((st.order_book.side side).length +
                                  (st.order_book.side (otherSide side)).length + 1),
            user_id := user_id, symbol := symbol, side := side,
            price := pr, quantity := quantity, oid := st.next_oid }).sell.Pairwise Rord ∧
          ∀ o ∈ (st.order_book.push side
          { order_id := toString ((st.order_book.side side).length +
                                  (st.order_book.side (otherSide side)).length + 1),
            user_id := user_id, symbol := symbol, side := side,
            price := pr, quantity := quantity, oid := st.next_oid }).buy ++
            (st.order_book.push side
          { order_id := toString ((st.order_book.side side).length +
                                  (st.order_book.side (otherSide side)).length + 1),
            user_id := user_id, symbol := symbol, side := side,
            price := pr, quantity := quantity, oid := st.next_oid }).sell,
            o.oid < st.next_oid + 1 := by
        rcases hsides with rfl | rfl
        · rw [Book.push_buy_buy, Book.push_buy_sell]
          refine ⟨?_, h2, ?_⟩
          · refine List.pairwise_append.mpr ⟨h1, by simp, ?_⟩
            intro x hx y hy
            have hy' : y = _ := List.mem_singleton.mp hy
            intro _ _
            rw [hy']
            exact h3 x (List.mem_append_left _ hx)
          · intro o ho
            rcases List.mem_append.mp ho with hob | hos
            · rcases List.mem_append.mp hob with ho1 | ho1
              · exact Nat.lt_succ_of_lt (h3 o (List.mem_append_left _ ho1))
              · rw [List.mem_singleton.mp ho1]
                exact Nat.lt_succ_self _
            · exact Nat.lt_succ_of_lt (h3 o (List.mem_append_right _ hos))
        · rw [Book.push_sell_buy, Book.push_sell_sell]
          refine ⟨h1, ?_, ?_⟩
          · refine List.pairwise_append.mpr ⟨h2, by simp, ?_⟩
            intro x hx y hy
            have hy' : y = _ := List.mem_singleton.mp hy
            intro _ _
            rw [hy']
            exact h3 x (List.mem_append_right _ hx)
          · intro o ho
            rcases List.mem_append.mp ho with hob | hos
            · exact Nat.lt_succ_of_lt (h3 o (List.mem_append_left _ hob))
            · rcases List.mem_append.mp hos with ho1 | ho1
              · exact Nat.lt_succ_of_lt (h3 o (List.mem_append_right _ ho1))
              · rw [List.mem_singleton.mp ho1]
                exact Nat.lt_succ_self _
      exact match_orders_wf _ symbol (st.next_oid + 1) hb'.1 hb'.2.1 hb'.2.2

theorem runSubs_wf (oracle : String → Option ℚ) (subs : List Submission) :
    BookWF (runSubs oracle subs) := by
  have key : ∀ (l : List Submission) (st : EngineState), BookWF st →
      BookWF (l.foldl (fun st sub =>
        (place_order oracle st sub.user_id sub.symbol sub.side sub.quantity sub.price).1) st) := by
    intro l
    induction l with
    | nil => intro st hst; exact hst
    | cons sub l ih =>
      intro st hst
      exact ih _ (place_order_wf oracle st sub.user_id sub.symbol sub.side
        sub.quantity sub.price hst)
  exact key subs initState initState_wf

/-- In a pairwise-related list, an element listed before another is related
to it. -/
theorem pairwise_of_split {R : Order → Order → Prop} {l l1 l2 l3 : List Order}
    {x y : Order} (hdec : l = l1 ++ x :: l2 ++ y :: l3) (h : l.Pairwise R) : R x y := by
  subst hdec
  exact (List.pairwise_append.mp h).2.2 x (by simp) y (by simp)

/-- C5: price-time priority, on both sides of the book.  In any reachable
state, take two resting orders `a`, `b` on one side (buy or sell) of the
book, of the same symbol and the same limit price, with `a` admitted first
(`a.oid < b.oid`; the ghost id records admission order).  If a `place_order`
call produces any trade attributed on that side to `b`'s participant, then
`a` was fully consumed by that call: no order of `a`'s participant remains on
the symbol's side of the book.  (Participants of the symbol's resting orders
on that side are assumed pairwise distinct and distinct from the caller, so
that trades can be attributed to orders.) -/
theorem c5_price_time_priority (oracle : String → Option ℚ) (subs : List Submission)
    (sym uid side0 : String) (qty : ℤ) (pr : Option ℚ) :
    (∀ a b : Order,
      a ∈ (runSubs oracle subs).order_book.buy →
      b ∈ (runSubs oracle subs).order_book.buy →
      a.symbol = sym → b.symbol = sym → a.price = b.price → a.oid < b.oid →
      ((runSubs oracle subs).order_book.buy.filter
        (fun o => o.symbol == sym)).Pairwise usersNe →
      (∀ o ∈ (runSubs oracle subs).order_book.buy.filter
        (fun o => o.symbol == sym), o.user_id ≠ uid) →
      (∃ t ∈ (place_order oracle (runSubs oracle subs) uid sym side0 qty
          pr).1.trade_history.drop (runSubs oracle subs).trade_history.length,
        t.buy_user_id = b.user_id) →
      ∀ o ∈ (place_order oracle (runSubs oracle subs) uid sym side0 qty
          pr).1.order_book.buy.filter (fun o => o.symbol == sym),
        o.user_id ≠ a.user_id) ∧
    (∀ a b : Order,
      a ∈ (runSubs oracle subs).order_book.sell →
      b ∈ (runSubs oracle subs).order_book.sell →
      a.symbol = sym → b.symbol = sym → a.price = b.price → a.oid < b.oid →
      ((runSubs oracle subs).order_book.sell.filter
        (fun o => o.symbol == sym)).Pairwise usersNe →
      (∀ o ∈ (runSubs oracle subs).order_book.sell.filter
        (fun o => o.symbol == sym), o.user_id ≠ uid) →
      (∃ t ∈ (place_order oracle (runSubs oracle subs) uid sym side0 qty
          pr).1.trade_history.drop (runSubs oracle subs).trade_history.length,
        t.sell_user_id = b.user_id) →
      ∀ o ∈ (place_order oracle (runSubs oracle subs) uid sym side0 qty
          pr).1.order_book.sell.filter (fun o => o.symbol == sym),
        o.user_id ≠ a.user_id) := by
  constructor
  · intro a b ha hb hasym hbsym hprice hseq husers huid htrade
    set st : EngineState := runSubs oracle subs with hst
    obtain ⟨hwb, hws, hwo⟩ := hst ▸ runSubs_wf oracle subs
    by_cases hside : side0 ≠ "buy" ∧ side0 ≠ "sell"
    · exfalso
      rw [place_order_invalid oracle st uid sym side0 qty pr hside] at htrade
      simp at htrade
    · cases hres : (match pr with
                    | some q => some q
                    | none => get_market_price oracle sym) with
      | none =>
        exfalso
        cases pr with
        | some q => simp at hres
        | none =>
          rw [place_order_noprice oracle st uid sym side0 qty hside
            (by simpa [get_market_price] using hres)] at htrade
          simp at htrade
      | some pr2 =>
        rw [place_order_success oracle st uid sym side0 qty pr pr2 hside hres] at htrade ⊢
        have hsides : side0 = "buy" ∨ side0 = "sell" := by
          by_cases hx : side0 = "buy"
          · exact Or.inl hx
          · exact Or.inr (by tauto)
        set agg : Order := { order_id := toString ((st.order_book.side side0).length +
                                (st.order_book.side (otherSide side0)).length + 1),
                             user_id := uid, symbol := sym, side := side0,
                             price := pr2, quantity := qty, oid := st.next_oid } with hagg
        set bk1 : Book := st.order_book.push side0 agg with hbk1
        simp only [match_orders, match_orders_core] at htrade ⊢
        set buysS : List Order := sortDesc (bk1.buy.filter (fun o => o.symbol == sym)) with hbuysS
        set sellsS : List Order := sortAsc (bk1.sell.filter (fun o => o.symbol == sym)) with hsellsS
        rw [List.drop_left] at htrade
        intro o ho
        obtain ⟨homem, hosym⟩ := List.mem_filter.mp ho
        rcases List.mem_append.mp homem with ho1 | ho2
        · -- o survived the matching loop on the submitted symbol
          have horem : o ∈ (matchLoop sym buysS sellsS).remBuys := (List.mem_filter.mp ho1).1
          have hamem1 : a ∈ bk1.buy := by
            rcases hsides with rfl | rfl
            · rw [hbk1, Book.push_buy_buy]; exact List.mem_append_left _ ha
            · rw [hbk1, Book.push_sell_buy]; exact ha
          have hbmem1 : b ∈ bk1.buy := by
            rcases hsides with rfl | rfl
            · rw [hbk1, Book.push_buy_buy]; exact List.mem_append_left _ hb
            · rw [hbk1, Book.push_sell_buy]; exact hb
          have haS : a ∈ buysS := by
            rw [hbuysS]
            exact sortDesc_mem.mpr (List.mem_filter.mpr ⟨hamem1, by simp [hasym]⟩)
          have hbS : b ∈ buysS := by
            rw [hbuysS]
            exact sortDesc_mem.mpr (List.mem_filter.mpr ⟨hbmem1, by simp [hbsym]⟩)
          have hpw1 : bk1.buy.Pairwise Rord := by
            rcases hsides with rfl | rfl
            · rw [hbk1, Book.push_buy_buy]
              refine List.pairwise_append.mpr ⟨hwb, by simp, ?_⟩
              intro x hx y hy
              rw [List.mem_singleton.mp hy, hagg]
              intro _ _
              exact hwo x (List.mem_append_left _ hx)
            · rw [hbk1, Book.push_sell_buy]
              exact hwb
          have hpwS : buysS.Pairwise Rord := by
            rw [hbuysS]
            exact sortDesc_pairwise rord_desc_hP
              (List.Pairwise.sublist (List.filter_sublist _) hpw1)
          have husS : buysS.Pairwise usersNe := by
            rw [hbuysS]
            refine (List.Perm.pairwise_iff (fun h => Ne.symm h) (sortDesc_perm _)).mpr ?_
            rcases hsides with rfl | rfl
            · rw [hbk1, Book.push_buy_buy, List.filter_append]
              have hf1 : List.filter (fun o => o.symbol == sym) [agg] = [agg] := by
                rw [hagg]; simp
              rw [hf1]
              refine List.pairwise_append.mpr ⟨husers, by simp, ?_⟩
              intro x hx y hy
              rw [List.mem_singleton.mp hy, hagg]
              exact huid x hx
            · rw [hbk1, Book.push_sell_buy]
              exact husers
          have hne : a ≠ b := fun heq => absurd hseq (by rw [heq]; exact lt_irrefl _)
          rcases mem_split_pair haS hbS hne with ⟨l1, l2, l3, hdec⟩ | ⟨l1, l2, l3, hdec⟩
          · rw [hdec] at htrade horem husS
            exact matchLoop_priority sym a b l2 l3 l1 sellsS husS htrade o horem
          · exfalso
            have hro : Rord b a := pairwise_of_split hdec hpwS
            exact absurd (hro (hbsym.trans hasym.symm) hprice.symm) (Nat.lt_asymm hseq)
        · -- o rests on another symbol: impossible inside the symbol filter
          exfalso
          have h1 : o.symbol ≠ sym := by simpa using (List.mem_filter.mp ho2).2
          exact h1 (by simpa using hosym)
  · intro a b ha hb hasym hbsym hprice hseq husers huid htrade
    set st : EngineState := runSubs oracle subs with hst
    obtain ⟨hwb, hws, hwo⟩ := hst ▸ runSubs_wf oracle subs
    by_cases hside : side0 ≠ "buy" ∧ side0 ≠ "sell"
    · exfalso
      rw [place_order_invalid oracle st uid sym side0 qty pr hside] at htrade
      simp at htrade
    · cases hres : (match pr with
                    | some q => some q
                    | none => get_market_price oracle sym) with
      | none =>
        exfalso
        cases pr with
        | some q => simp at hres
        | none =>
          rw [place_order_noprice oracle st uid sym side0 qty hside
            (by simpa [get_market_price] using hres)] at htrade
          simp at htrade
      | some pr2 =>
        rw [place_order_success oracle st uid sym side0 qty pr pr2 hside hres] at htrade ⊢
        have hsides : side0 = "buy" ∨ side0 = "sell" := by
          by_cases hx : side0 = "buy"
          · exact Or.inl hx
          · exact Or.inr (by tauto)
        set agg : Order := { order_id := toString ((st.order_book.side side0).length +
                                (st.order_book.side (otherSide side0)).length + 1),
                             user_id := uid, symbol := sym, side := side0,
                             price := pr2, quantity := qty, oid := st.next_oid } with hagg
        set bk1 : Book := st.order_book.push side0 agg with hbk1
        simp only [match_orders, match_orders_core] at htrade ⊢
        set buysS : List Order := sortDesc (bk1.buy.filter (fun o => o.symbol == sym)) with hbuysS
        set sellsS : List Order := sortAsc (bk1.sell.filter (fun o => o.symbol == sym)) with hsellsS
        rw [List.drop_left] at htrade
        intro o ho
        obtain ⟨homem, hosym⟩ := List.mem_filter.mp ho
        rcases List.mem_append.mp homem with ho1 | ho2
        · -- o survived the matching loop on the submitted symbol
          have horem : o ∈ (matchLoop sym buysS sellsS).remSells := (List.mem_filter.mp ho1).1
          have hamem1 : a ∈ bk1.sell := by
            rcases hsides with rfl | rfl
            · rw [hbk1, Book.push_buy_sell]; exact ha
            · rw [hbk1, Book.push_sell_sell]; exact List.mem_append_left _ ha
          have hbmem1 : b ∈ bk1.sell := by
            rcases hsides with rfl | rfl
            · rw [hbk1, Book.push_buy_sell]; exact hb
            · rw [hbk1, Book.push_sell_sell]; exact List.mem_append_left _ hb
          have haS : a ∈ sellsS := by
            rw [hsellsS]
            exact sortAsc_mem.mpr (List.mem_filter.mpr ⟨hamem1, by simp [hasym]⟩)
          have hbS : b ∈ sellsS := by
            rw [hsellsS]
            exact sortAsc_mem.mpr (List.mem_filter.mpr ⟨hbmem1, by simp [hbsym]⟩)
          have hpw1 : bk1.sell.Pairwise Rord := by
            rcases hsides with rfl | rfl
            · rw [hbk1, Book.push_buy_sell]
              exact hws
            · rw [hbk1, Book.push_sell_sell]
              refine List.pairwise_append.mpr ⟨hws, by simp, ?_⟩
              intro x hx y hy
              rw [List.mem_singleton.mp hy, hagg]
              intro _ _
              exact hwo x (List.mem_append_right _ hx)
          have hpwS : sellsS.Pairwise Rord := by
            rw [hsellsS]
            exact sortAsc_pairwise rord_asc_hP
              (List.Pairwise.sublist (List.filter_sublist _) hpw1)
          have husS : sellsS.Pairwise usersNe := by
            rw [hsellsS]
            refine (List.Perm.pairwise_iff (fun h => Ne.symm h) (sortAsc_perm _)).mpr ?_
            rcases hsides with rfl | rfl
            · rw [hbk1, Book.push_buy_sell]
              exact husers
            · rw [hbk1, Book.push_sell_sell, List.filter_append]
              have hf1 : List.filter (fun o => o.symbol == sym) [agg] = [agg] := by
                rw [hagg]; simp
              rw [hf1]
              refine List.pairwise_append.mpr ⟨husers, by simp, ?_⟩
              intro x hx y hy
              rw [List.mem_singleton.mp hy, hagg]
              exact huid x hx
          have hne : a ≠ b := fun heq => absurd hseq (by rw [heq]; exact lt_irrefl _)
          rcases mem_split_pair haS hbS hne with ⟨l1, l2, l3, hdec⟩ | ⟨l1, l2, l3, hdec⟩
          · exact matchLoop_priority_sell sym a.user_id b.user_id buysS sellsS husS
              (Or.inl ⟨l1, a, l2, b, l3, hdec, rfl, rfl⟩) htrade o horem
          · exfalso
            have hro : Rord b a := pairwise_of_split hdec hpwS
            exact absurd (hro (hbsym.trans hasym.symm) hprice.symm) (Nat.lt_asymm hseq)
        · -- o rests on another symbol: impossible inside the symbol filter
          exfalso
          have h1 : o.symbol ≠ sym := by simpa using (List.mem_filter.mp ho2).2
          exact h1 (by simpa using hosym)


/-- Witness for C5, both halves.  Buy side: a sell for 7 first fills A's
resting buy (5), then B's (2); a trade is attributed to B and A no longer
rests.  Sell side: a buy for 6 first fills A's resting sell (5), then takes 1
from B's; a trade is attributed to seller B and A no longer rests. -/
theorem c5_price_time_priority_witness :
    (c5wA ∈ (runSubs (fun _ => none) c5wSubs).order_book.buy ∧
      c5wB ∈ (runSubs (fun _ => none) c5wSubs).order_book.buy ∧
      c5wA.oid < c5wB.oid ∧
      (∃ t ∈ (place_order (fun _ => none) (runSubs (fun _ => none) c5wSubs)
          "carol" "ACME" "sell" 7 (some 100)).1.trade_history.drop
          (runSubs (fun _ => none) c5wSubs).trade_history.length,
        t.buy_user_id = c5wB.user_id) ∧
      (∀ o ∈ (place_order (fun _ => none) (runSubs (fun _ => none) c5wSubs)
          "carol" "ACME" "sell" 7 (some 100)).1.order_book.buy.filter
          (fun o => o.symbol == "ACME"),
        o.user_id ≠ c5wA.user_id)) ∧
    (c5sA ∈ (runSubs (fun _ => none) c5sSubs).order_book.sell ∧
      c5sB ∈ (runSubs (fun _ => none) c5sSubs).order_book.sell ∧
      c5sA.oid < c5sB.oid ∧
      (∃ t ∈ (place_order (fun _ => none) (runSubs (fun _ => none) c5sSubs)
          "carol" "ACME" "buy" 6 (some 100)).1.trade_history.drop
          (runSubs (fun _ => none) c5sSubs).trade_history.length,
        t.sell_user_id = c5sB.user_id) ∧
      (∀ o ∈ (place_order (fun _ => none) (runSubs (fun _ => none) c5sSubs)
          "carol" "ACME" "buy" 6 (some 100)).1.order_book.sell.filter
          (fun o => o.symbol == "ACME"),
        o.user_id ≠ c5sA.user_id)) :=
  ⟨⟨by decide, by decide, by decide, by decide,
    (c5_price_time_priority (fun _ => none) c5wSubs "ACME" "carol" "sell" 7 (some 100)).1
      c5wA c5wB (by decide) (by decide) (by decide) (by decide) (by decide) (by decide)
      (by decide) (by decide) (by decide)⟩,
   ⟨by decide, by decide, by decide, by decide,
    (c5_price_time_priority (fun _ => none) c5sSubs "ACME" "carol" "buy" 6 (some 100)).2
      c5sA c5sB (by decide) (by decide) (by decide) (by decide) (by decide) (by decide)
      (by decide) (by decide) (by decide)⟩⟩

/-- C2: after any sequence of `place_order` calls starting from a fresh
engine, no symbol's book is crossed: every resting buy of a symbol is priced
strictly below every resting sell of that symbol (in particular the highest
bid is strictly below the lowest ask whenever both sides are non-empty). -/
theorem c2_no_crossed_book (oracle : String → Option ℚ) (subs : List Submission)
    (sym : String) :
    ∀ b ∈ (get_order_book (runSubs oracle subs) (some sym)).buy,
      ∀ s ∈ (get_order_book (runSubs oracle subs) (some sym)).sell,
        b.price < s.price := by
  intro b hb s hs
  have h := runSubs_uncrossed oracle subs
  simp only [get_order_book] at hb hs
  obtain ⟨hb1, hb2⟩ := List.mem_filter.mp hb
  obtain ⟨hs1, hs2⟩ := List.mem_filter.mp hs
  refine h b hb1 s hs1 ?_
  simp only [beq_iff_eq] at hb2 hs2
  rw [hb2, hs2]

/-- Witness for C2 at a concrete run: buy 5 @ 90 and sell 5 @ 100 rest on the
two sides of the same book, and the theorem yields 90 < 100. -/
theorem c2_no_crossed_book_witness :
    ({ order_id := "1", user_id := "alice", symbol := "ACME", side := "buy",
       price := 90, quantity := 5, oid := 0 } : Order) ∈
      (get_order_book (runSubs (fun _ => none)
        [{ user_id := "alice", symbol := "ACME", side := "buy", quantity := 5, price := some 90 },
         { user_id := "bob", symbol := "ACME", side := "sell", quantity := 5, price := some 100 }])
        (some "ACME")).buy ∧
    ({ order_id := "2", user_id := "bob", symbol := "ACME", side := "sell",
       price := 100, quantity := 5, oid := 1 } : Order) ∈
      (get_order_book (runSubs (fun _ => none)
        [{ user_id := "alice", symbol := "ACME", side := "buy", quantity := 5, price := some 90 },
         { user_id := "bob", symbol := "ACME", side := "sell", quantity := 5, price := some 100 }])
        (some "ACME")).sell ∧
    (90 : ℚ) < 100 :=
  ⟨by decide, by decide,
    c2_no_crossed_book (fun _ => none)
      [{ user_id := "alice", symbol := "ACME", side := "buy", quantity := 5, price := some 90 },
       { user_id := "bob", symbol := "ACME", side := "sell", quantity := 5, price := some 100 }]
      "ACME"
      { order_id := "1", user_id := "alice", symbol := "ACME", side := "buy",
        price := 90, quantity := 5, oid := 0 } (by decide)
      { order_id := "2", user_id := "bob", symbol := "ACME", side := "sell",
        price := 100, quantity := 5, oid := 1 } (by decide)⟩

/-- C7: whenever `place_order` returns an error — an invalid side, or a
market order whose oracle lookup fails — the engine state (order book and
trade history) is exactly what it was before the call. -/
theorem c7_error_no_mutation (oracle : String → Option ℚ) (st : EngineState)
    (user_id symbol side : String) (quantity : ℤ) (price : Option ℚ) (m : String)
    (h : (place_order oracle st user_id symbol side quantity price).2 = PlaceResult.error m) :
    (place_order oracle st user_id symbol side quantity price).1 = st := by
  by_cases hside : side ≠ "buy" ∧ side ≠ "sell"
  · rw [place_order_invalid oracle st user_id symbol side quantity price hside]
  · cases hres : (match price with
                  | some q => some q
                  | none => get_market_price oracle symbol) with
    | none =>
      cases price with
      | some q => simp at hres
      | none =>
        rw [place_order_noprice oracle st user_id symbol side quantity hside
          (by simpa [get_market_price] using hres)]
    | some pr =>
      exfalso
      rw [place_order_success oracle st user_id symbol side quantity price pr hside hres] at h
      simp at h

/-- Witness for C7: an invalid side is rejected and the state is unchanged. -/
theorem c7_error_no_mutation_witness :
    (place_order (fun _ => none) initState "u" "ACME" "hold" 1 (some 1)).2 =
      PlaceResult.error "Invalid side, must be buy or sell" ∧
    (place_order (fun _ => none) initState "u" "ACME" "hold" 1 (some 1)).1 = initState :=
  ⟨by decide,
    c7_error_no_mutation (fun _ => none) initState "u" "ACME" "hold" 1 (some 1)
      "Invalid side, must be buy or sell" (by decide)⟩

/-- C10: a `place_order` call for symbol `sym` leaves the resting orders of
every other symbol exactly as they were — same orders, same fields, same
relative list order, on both book sides. -/
theorem c10_other_symbols_frame (oracle : String → Option ℚ) (st : EngineState)
    (user_id sym side : String) (quantity : ℤ) (price : Option ℚ) (S' : String)
    (hne : S' ≠ sym) :
    (place_order oracle st user_id sym side quantity price).1.order_book.buy.filter
        (fun o => o.symbol == S') =
      st.order_book.buy.filter (fun o => o.symbol == S') ∧
    (place_order oracle st user_id sym side quantity price).1.order_book.sell.filter
        (fun o => o.symbol == S') =
      st.order_book.sell.filter (fun o => o.symbol == S') := by
  by_cases hside : side ≠ "buy" ∧ side ≠ "sell"
  · rw [place_order_invalid oracle st user_id sym side quantity price hside]
    exact ⟨rfl, rfl⟩
  · cases hres : (match price with
                  | some q => some q
                  | none => get_market_price oracle sym) with
    | none =>
      cases price with
      | some q => simp at hres
      | none =>
        rw [place_order_noprice oracle st user_id sym side quantity hside
          (by simpa [get_market_price] using hres)]
        exact ⟨rfl, rfl⟩
    | some pr =>
      rw [place_order_success oracle st user_id sym side quantity price pr hside hres]
      obtain ⟨hf1, hf2⟩ := match_orders_filter_frame
        (st.order_book.push side
          { order_id := toString ((st.order_book.side side).length +
                                  (st.order_book.side (otherSide side)).length + 1),
            user_id := user_id, symbol := sym, side := side,
            price := pr, quantity := quantity, oid := st.next_oid }) sym S' hne
      have hsides : side = "buy" ∨ side = "sell" := by
        by_cases h1 : side = "buy"
        · exact Or.inl h1
        · exact Or.inr (by tauto)
      constructor
      · rw [hf1]
        rcases hsides with rfl | rfl
        · rw [Book.push_buy_buy, List.filter_append]
          have : List.filter (fun o => o.symbol == S')
              [({ order_id := toString ((st.order_book.side "buy").length +
                                        (st.order_book.side (otherSide "buy")).length + 1),
                  user_id := user_id, symbol := sym, side := "buy",
                  price := pr, quantity := quantity, oid := st.next_oid } : Order)] = [] := by
            simp
            exact fun hx => hne hx.symm
          rw [this, List.append_nil]
        · rw [Book.push_sell_buy]
      · rw [hf2]
        rcases hsides with rfl | rfl
        · rw [Book.push_buy_sell]
        · rw [Book.push_sell_sell, List.filter_append]
          have : List.filter (fun o => o.symbol == S')
              [({ order_id := toString ((st.order_book.side "sell").length +
                                        (st.order_book.side (otherSide "sell")).length + 1),
                  user_id := user_id, symbol := sym, side := "sell",
                  price := pr, quantity := quantity, oid := st.next_oid } : Order)] = [] := by
            simp
            exact fun hx => hne hx.symm
          rw [this, List.append_nil]

/-- Witness for C10: a fully matching submission on ACME leaves a resting
order of symbol XYZ untouched. -/
theorem c10_other_symbols_frame_witness :
    ("XYZ" : String) ≠ "ACME" ∧
    ((place_order (fun _ => none)
        (runSubs (fun _ => none)
          [{ user_id := "carol", symbol := "XYZ", side := "buy", quantity := 3, price := some 7 },
           { user_id := "alice", symbol := "ACME", side := "buy", quantity := 5, price := some 100 }])
        "bob" "ACME" "sell" 5 (some 100)).1.order_book.buy.filter
          (fun o => o.symbol == "XYZ") =
      (runSubs (fun _ => none)
          [{ user_id := "carol", symbol := "XYZ", side := "buy", quantity := 3, price := some 7 },
           { user_id := "alice", symbol := "ACME", side := "buy", quantity := 5, price := some 100 }]).order_book.buy.filter
          (fun o => o.symbol == "XYZ")) :=
  ⟨by decide,
    (c10_other_symbols_frame (fun _ => none)
      (runSubs (fun _ => none)
        [{ user_id := "carol", symbol := "XYZ", side := "buy", quantity := 3, price := some 7 },
         { user_id := "alice", symbol := "ACME", side := "buy", quantity := 5, price := some 100 }])
      "bob" "ACME" "sell" 5 (some 100) "XYZ" (by decide)).1⟩

-- sanity: scenario B of the spec (resting Sell 5 @ 99, submit Buy 10 @ 100)
example :
    (place_order (fun _ => none)
      ((place_order (fun _ => none) initState "alice" "ACME" "sell" 5 (some 99)).1)
      "bob" "ACME" "buy" 10 (some 100)).1.trade_history =
    [{ symbol := "ACME", price := 99, quantity := 5,
       buy_user_id := "bob", sell_user_id := "alice" }] := by
  decide

/-- C1 counterexample: with a resting Buy 5 @ 101 by alice, submitting the
aggressor Sell 5 @ 100 by bob produces a trade at price 100 — the aggressor's
price — not at the resting buy order's limit price 101.  (`match_orders`
always prices a trade at the sell side's price.) -/
theorem c1_counterexample :
    (place_order (fun _ => none)
      ((place_order (fun _ => none) initState "alice" "ACME" "buy" 5 (some 101)).1)
      "bob" "ACME" "sell" 5 (some 100)).1.trade_history =
      [{ symbol := "ACME", price := 100, quantity := 5,
         buy_user_id := "alice", sell_user_id := "bob" }] ∧
    ((place_order (fun _ => none) initState "alice" "ACME" "buy" 5 (some 101)).1).order_book.buy =
      [{ order_id := "1", user_id := "alice", symbol := "ACME", side := "buy",
         price := 101, quantity := 5, oid := 0 }] ∧
    (100 : ℚ) ≠ 101 := by
  decide

/-- C4 counterexample: submitting an order with `quantity = 0` does not fail —
`place_order` has no quantity validation and returns `"status": "success"`. -/
theorem c4_counterexample :
    (place_order (fun _ => none) initState "zed" "ACME" "buy" 0 (some 100)) =
      ({ order_book := { buy := [], sell := [] }, trade_history := [], next_oid := 1 },
       PlaceResult.success
         { order_id := "1", user_id := "zed", symbol := "ACME", side := "buy",
           price := 100, quantity := 0, oid := 0 }) := by
  decide

/-- C8: the order id is derived from the current sizes of the book sides, so
after a full fill empties the book the id `"1"` is assigned a second time:
alice's order (first call) and carol's order (third call, after alice's and
bob's orders fully matched and left the book) both carry `order_id = "1"`. -/
theorem c8_id_collision :
    (place_order (fun _ => none) initState "alice" "ACME" "buy" 5 (some 100)).2 =
      PlaceResult.success
        { order_id := "1", user_id := "alice", symbol := "ACME", side := "buy",
          price := 100, quantity := 5, oid := 0 } ∧
    (place_order (fun _ => none)
      ((place_order (fun _ => none)
        ((place_order (fun _ => none) initState "alice" "ACME" "buy" 5 (some 100)).1)
        "bob" "ACME" "sell" 5 (some 100)).1)
      "carol" "ACME" "buy" 7 (some 50)).2 =
      PlaceResult.success
        { order_id := "1", user_id := "carol", symbol := "ACME", side := "buy",
          price := 50, quantity := 7, oid := 2 } := by
  decide

/-- C9 counterexample: two runs that produce different trades (a fill at 99
versus a fill at 98) return bit-for-bit identical results from `place_order`
(`{"status": "success", "order": ...}` carries no trade list), so the value
returned by a successful submission cannot contain the trades produced by that
call. -/
theorem c9_counterexample :
    (place_order (fun _ => none)
      ((place_order (fun _ => none) initState "alice" "ACME" "sell" 5 (some 99)).1)
      "bob" "ACME" "buy" 5 (some 100)).2 =
    (place_order (fun _ => none)
      ((place_order (fun _ => none) initState "alice" "ACME" "sell" 5 (some 98)).1)
      "bob" "ACME" "buy" 5 (some 100)).2 ∧
    (place_order (fun _ => none)
      ((place_order (fun _ => none) initState "alice" "ACME" "sell" 5 (some 99)).1)
      "bob" "ACME" "buy" 5 (some 100)).1.trade_history ≠
    (place_order (fun _ => none)
      ((place_order (fun _ => none) initState "alice" "ACME" "sell" 5 (some 98)).1)
      "bob" "ACME" "buy" 5 (some 100)).1.trade_history := by
  decide

/-- C6: from a book holding Sell 5 @ 100 (admitted first) and Sell 5 @ 101
(admitted second) and no bids, submitting Buy 10 @ 101 produces exactly the
two trades 5 @ 100 then 5 @ 101 in that order, removes both asks, leaves the
aggressor fully filled (final quantity 0), and inserts nothing on either
side. -/
theorem c6_scenario :
    (place_order (fun _ => none)
      ((place_order (fun _ => none)
        ((place_order (fun _ => none) initState "alice" "ACME" "sell" 5 (some 100)).1)
        "bob" "ACME" "sell" 5 (some 101)).1)
      "carol" "ACME" "buy" 10 (some 101)) =
    ({ order_book := { buy := [], sell := [] },
       trade_history :=
         [{ symbol := "ACME", price := 100, quantity := 5,
            buy_user_id := "carol", sell_user_id := "alice" },
          { symbol := "ACME", price := 101, quantity := 5,
            buy_user_id := "carol", sell_user_id := "bob" }],
       next_oid := 3 },
     PlaceResult.success
       { order_id := "3", user_id := "carol", symbol := "ACME", side := "buy",
         price := 101, quantity := 0, oid := 2 }) := by
  decide
